import Mathlib

/-!
Verification of the review-hub incremental collection / identity / reconciliation
engine (aerokor-reviews repository).

The Lean definitions below are shallow embeddings of the Python source:
  * src/review_hub/state.py        (TextSet.load / TextSet.add_many)
  * src/review_hub/lock.py         (file_lock)
  * src/review_hub/collect_coupang_browser.py
      (normalize_coupang_product_url, _dedup_key_for_review,
       discover_product_urls_for_brandshop, detect_blocked_page fail-fast)
  * src/review_hub/collect_ohou_browser.py
      (discover_goods_ids_openclaw, fetch_reviews_for_goods_ids_openclaw)
  * src/review_hub/ingest_ohou_json.py (main: upsert reconciliation)

Python strings are modelled as `List Char` (named `PyStr`) where the file
format / whitespace behaviour matters, and as Lean `String` elsewhere.
SHA-256 (hashlib.sha256(...).hexdigest()) is kept abstract as a parameter
`h : String -> String`; none of the verified properties depend on the
internals of the digest, only on how the code composes it.
-/

set_option autoImplicit false

/-! ## Python string primitives (List Char model) -/

/-- Characters treated as whitespace by Python str.strip() (ASCII fragment). -/
def isPyWs (c : Char) : Bool :=
  c = ' ' || c = '\t' || c = '\n' || c = '\r' || c = '\x0b' || c = '\x0c'

/-- Python-style string, as a list of characters. -/
abbrev PyStr := List Char

/-- Python str.strip(): drop leading and trailing whitespace. -/
def pyStrip (s : PyStr) : PyStr :=
  ((s.dropWhile isPyWs).reverse.dropWhile isPyWs).reverse

/-- Prepend a character to the first chunk of a chunk list. -/
def consHead (c : Char) : List PyStr → List PyStr
  | [] => [[c]]
  | l :: ls => (c :: l) :: ls

/-- Split a character list at every newline character (separators dropped).
This matches iterating over a text file line by line and then stripping,
since str.strip() removes the trailing newline anyway. -/
def splitOnNl : PyStr → List PyStr
  | [] => [[]]
  | c :: rest =>
    if c = '\n' then [] :: splitOnNl rest else consHead c (splitOnNl rest)

/-- Join lines into file content, terminating each line with a newline,
exactly the way TextSet.add_many writes (`f.write(i + "\n")`). -/
def joinLines (ls : List PyStr) : PyStr :=
  (ls.map (fun l => l ++ ['\n'])).flatten

/-- Decompose file content into newline-terminated lines (left inverse of
`joinLines` on newline-terminated content). -/
def toLines : PyStr → List PyStr
  | [] => []
  | c :: rest =>
    if c = '\n' then [] :: toLines rest else consHead c (toLines rest)

/-- File content is newline-terminated: it is exactly a sequence of
newline-terminated lines. This is the invariant the TextSet file format
maintains, since every write appends `key + "\n"`. -/
def nlTerminated (s : PyStr) : Prop :=
  joinLines (toLines s) = s

instance (s : PyStr) : Decidable (nlTerminated s) := by
  unfold nlTerminated; infer_instance

/-! ## src/review_hub/state.py : TextSet -/

/-- TextSet.load: the set of stripped, non-empty lines of the backing file
(a missing file is modelled as empty content). Duplicates are immaterial;
membership in this list is the set membership of the Python set. -/
def TextSet_load (content : PyStr) : List PyStr :=
  ((splitOnNl content).map pyStrip).filter (fun l => !l.isEmpty)

/-- The filter TextSet.add_many applies to its input items:
`[i for i in items if i and i not in existing]` where
`existing = self.load()` is the state reloaded at call time. -/
def addMany_newItems (content : PyStr) (items : List PyStr) : List PyStr :=
  items.filter (fun i => !i.isEmpty && !(TextSet_load content).contains i)

/-- TextSet.add_many: returns the new file content and the returned count.
If no new items, the file is untouched and 0 is returned; otherwise every
new item is appended as `item + "\n"` and their number is returned. -/
def TextSet_add_many (content : PyStr) (items : List PyStr) : PyStr × Nat :=
  let newItems := addMany_newItems content items
  if newItems.isEmpty then (content, 0)
  else (content ++ joinLines newItems, newItems.length)

/-- A clean key: non-empty, strip-invariant, and containing no newline.
Every sha256 hex digest (the keys this store actually holds) is clean. -/
def cleanKey (k : PyStr) : Prop :=
  k ≠ [] ∧ pyStrip k = k ∧ ('\n' : Char) ∉ k

instance (k : PyStr) : Decidable (cleanKey k) := by
  unfold cleanKey; infer_instance

/-! ### Line-splitting lemmas -/

theorem splitOnNl_append_of_no_nl (k : PyStr) (hk : ('\n' : Char) ∉ k) (t : PyStr) :
    splitOnNl (k ++ '\n' :: t) = k :: splitOnNl t := by
  induction k with
  | nil => simp [splitOnNl]
  | cons c cs ih =>
    have hc : c ≠ '\n' := by intro h; exact hk (h ▸ List.mem_cons_self c cs)
    have hcs : ('\n' : Char) ∉ cs := fun h => hk (List.mem_cons_of_mem c h)
    simp only [List.cons_append, splitOnNl, if_neg hc]
    show consHead c (splitOnNl (cs ++ '\n' :: t)) = (c :: cs) :: splitOnNl t
    rw [ih hcs]
    rfl

theorem splitOnNl_joinLines_append (ls : List PyStr) (h : ∀ l ∈ ls, ('\n' : Char) ∉ l)
    (t : PyStr) : splitOnNl (joinLines ls ++ t) = ls ++ splitOnNl t := by
  induction ls with
  | nil => simp [joinLines]
  | cons l rest ih =>
    have h1 : ('\n' : Char) ∉ l := h l (List.mem_cons_self l rest)
    have h2 : ∀ x ∈ rest, ('\n' : Char) ∉ x := fun x hx => h x (List.mem_cons_of_mem l hx)
    have : joinLines (l :: rest) ++ t = l ++ '\n' :: (joinLines rest ++ t) := by
      simp [joinLines]
    rw [this, splitOnNl_append_of_no_nl l h1, ih h2]
    simp

theorem toLines_no_nl (s : PyStr) : ∀ l ∈ toLines s, ('\n' : Char) ∉ l := by
  induction s with
  | nil => simp [toLines]
  | cons c rest ih =>
    by_cases hc : c = '\n'
    · simp only [toLines, hc, if_pos rfl]
      intro l hl
      rcases List.mem_cons.mp hl with h | h
      · subst h; simp
      · exact ih l h
    · simp only [toLines, if_neg hc]
      cases htl : toLines rest with
      | nil =>
        intro l hl
        simp only [consHead, List.mem_singleton] at hl
        subst hl
        intro hmem
        rcases List.mem_cons.mp hmem with h' | h'
        · exact hc h'.symm
        · simp at h'
      | cons l0 ls =>
        intro l hl
        simp only [consHead] at hl
        rcases List.mem_cons.mp hl with h | h
        · subst h
          intro hmem
          rcases List.mem_cons.mp hmem with h' | h'
          · exact hc h'.symm
          · exact (ih l0 (htl ▸ List.mem_cons_self l0 ls)) h'
        · exact ih l (htl ▸ List.mem_cons_of_mem l0 h)

theorem toLines_append_of_no_nl (k : PyStr) (hk : ('\n' : Char) ∉ k) (t : PyStr) :
    toLines (k ++ '\n' :: t) = k :: toLines t := by
  induction k with
  | nil => simp [toLines]
  | cons c cs ih =>
    have hc : c ≠ '\n' := by intro h; exact hk (h ▸ List.mem_cons_self c cs)
    have hcs : ('\n' : Char) ∉ cs := fun h => hk (List.mem_cons_of_mem c h)
    simp only [List.cons_append, toLines, if_neg hc]
    show consHead c (toLines (cs ++ '\n' :: t)) = (c :: cs) :: toLines t
    rw [ih hcs]
    rfl

theorem toLines_joinLines (ls : List PyStr) (h : ∀ l ∈ ls, ('\n' : Char) ∉ l) :
    toLines (joinLines ls) = ls := by
  induction ls with
  | nil => simp [joinLines, toLines]
  | cons l rest ih =>
    have h1 : ('\n' : Char) ∉ l := h l (List.mem_cons_self l rest)
    have h2 : ∀ x ∈ rest, ('\n' : Char) ∉ x := fun x hx => h x (List.mem_cons_of_mem l hx)
    have : joinLines (l :: rest) = l ++ '\n' :: joinLines rest := by simp [joinLines]
    rw [this, toLines_append_of_no_nl l h1, ih h2]

theorem joinLines_append (a b : List PyStr) :
    joinLines (a ++ b) = joinLines a ++ joinLines b := by
  simp [joinLines]

theorem nlTerminated_append_joinLines (s : PyStr) (hs : nlTerminated s) (ks : List PyStr)
    (hks : ∀ k ∈ ks, ('\n' : Char) ∉ k) : nlTerminated (s ++ joinLines ks) := by
  unfold nlTerminated at *
  conv_lhs => rw [← hs, ← joinLines_append]
  rw [toLines_joinLines]
  · rw [joinLines_append, hs]
  · intro l hl
    rcases List.mem_append.mp hl with h | h
    · exact toLines_no_nl s l h
    · exact hks l h

theorem splitOnNl_of_terminated (s : PyStr) (hs : nlTerminated s) :
    splitOnNl s = toLines s ++ [[]] := by
  conv_lhs => rw [← hs]
  have := splitOnNl_joinLines_append (toLines s) (toLines_no_nl s) []
  simpa [splitOnNl] using this

/-- Loading newline-terminated content sees exactly its stripped non-empty lines. -/
theorem TextSet_load_terminated (s : PyStr) (h : nlTerminated s) :
    TextSet_load s = ((toLines s).map pyStrip).filter (fun l => !l.isEmpty) := by
  unfold TextSet_load
  rw [splitOnNl_of_terminated s h]
  simp [pyStrip]

/-- Appending clean keys to newline-terminated content extends the loaded
set on the right. -/
theorem TextSet_load_append (s : PyStr) (hs : nlTerminated s) (ks : List PyStr)
    (hks : ∀ k ∈ ks, cleanKey k) :
    TextSet_load (s ++ joinLines ks) = TextSet_load s ++ ks := by
  have hterm2 : nlTerminated (s ++ joinLines ks) :=
    nlTerminated_append_joinLines s hs ks (fun k hk => (hks k hk).2.2)
  rw [TextSet_load_terminated _ hterm2, TextSet_load_terminated s hs]
  have hto : toLines (s ++ joinLines ks) = toLines s ++ ks := by
    conv_lhs => rw [← hs, ← joinLines_append]
    rw [toLines_joinLines]
    intro l hl
    rcases List.mem_append.mp hl with h | h
    · exact toLines_no_nl s l h
    · exact (hks l h).2.2
  rw [hto, List.map_append, List.filter_append]
  congr 1
  have hmap : ks.map pyStrip = ks := by
    conv_rhs => rw [← List.map_id ks]
    exact List.map_congr_left (fun k hk => (hks k hk).2.1)
  rw [hmap]
  apply List.filter_eq_self.mpr
  intro k hk
  simpa using (hks k hk).1

/-! ### C3 / C10 : TextSet.add_many behaviour -/

theorem addMany_newItems_eq_self (content : PyStr) (K : List PyStr)
    (hclean : ∀ k ∈ K, cleanKey k) (hfresh : ∀ k ∈ K, k ∉ TextSet_load content) :
    addMany_newItems content K = K := by
  apply List.filter_eq_self.mpr
  intro k hk
  have h1 : List.isEmpty k = false := by
    cases hkE : List.isEmpty k
    · rfl
    · exact absurd (List.isEmpty_iff.mp hkE) (hclean k hk).1
  have h2 : (TextSet_load content).contains k = false := by
    cases hkC : (TextSet_load content).contains k
    · rfl
    · exact absurd (List.elem_iff.mp hkC) (hfresh k hk)
  simp only [h1, h2, Bool.not_false, Bool.and_self]

/-- C3 as frozen is violated by keys that are empty or not strip-invariant:
with an empty store and K = [" a", ""] (whose keys the store indeed does not
contain), the first AddMany returns 1, not len(K) = 2; the resulting Load()
does not contain the key " a"; and the second AddMany returns 1, not 0. -/
theorem C3_counterexample :
    ([' ', 'a'] ∉ TextSet_load ([] : PyStr))
      ∧ (([] : PyStr) ∉ TextSet_load ([] : PyStr))
      ∧ ([' ', 'a'] ∉ TextSet_load (TextSet_add_many [] [[' ', 'a'], []]).1)
      ∧ (TextSet_add_many [] [[' ', 'a'], []]).2 ≠ ([[' ', 'a'], []] : List PyStr).length
      ∧ (TextSet_add_many (TextSet_add_many [] [[' ', 'a'], []]).1 [[' ', 'a'], []]).2 ≠ 0 := by
  decide

/-- C3 (amended): for clean keys (non-empty, strip-invariant, newline-free —
true of every sha256 hex key this store holds) over a newline-terminated
store file: after AddMany(K), Load() contains every key of K; when the store
contains none of K, the first AddMany(K) returns len(K) and an immediately
following AddMany(K) returns 0. -/
theorem C3_addMany_monotone (content : PyStr) (K : List PyStr)
    (hterm : nlTerminated content) (hclean : ∀ k ∈ K, cleanKey k)
    (hfresh : ∀ k ∈ K, k ∉ TextSet_load content) :
    (∀ k ∈ K, k ∈ TextSet_load (TextSet_add_many content K).1)
      ∧ (TextSet_add_many content K).2 = K.length
      ∧ (TextSet_add_many (TextSet_add_many content K).1 K).2 = 0 := by
  have hnew : addMany_newItems content K = K :=
    addMany_newItems_eq_self content K hclean hfresh
  by_cases hK : K = []
  · subst hK
    simp [TextSet_add_many, addMany_newItems]
  · have hres : TextSet_add_many content K = (content ++ joinLines K, K.length) := by
      unfold TextSet_add_many
      rw [hnew]
      rw [if_neg (by simpa [List.isEmpty_iff] using hK)]
    have hload : TextSet_load (content ++ joinLines K) = TextSet_load content ++ K :=
      TextSet_load_append content hterm K hclean
    refine ⟨?_, ?_, ?_⟩
    · intro k hk
      rw [hres]
      simpa [hload] using Or.inr hk
    · rw [hres]
    · rw [hres]
      unfold TextSet_add_many
      have hnil : addMany_newItems (content ++ joinLines K) K = [] := by
        apply List.filter_eq_nil_iff.mpr
        intro k hk
        have h2 : (TextSet_load (content ++ joinLines K)).contains k = true :=
          List.elem_iff.mpr (by rw [hload]; exact List.mem_append_right _ hk)
        simp only [h2, Bool.not_true, Bool.and_false, Bool.false_eq_true, not_false_eq_true]
      simp [hnil]

/-- C3 witness: instantiation of the amended theorem at an empty store and
K = ["a", "b"]. -/
theorem C3_addMany_monotone_witness :
    (∀ k ∈ ([['a'], ['b']] : List PyStr), k ∈ TextSet_load (TextSet_add_many [] [['a'], ['b']]).1)
      ∧ (TextSet_add_many [] [['a'], ['b']]).2 = 2
      ∧ (TextSet_add_many (TextSet_add_many [] [['a'], ['b']]).1 [['a'], ['b']]).2 = 0 :=
  C3_addMany_monotone [] [['a'], ['b']] (by decide) (by decide) (by decide)

/-- C10: AddMany does not deduplicate within its own input. The appended
content and the returned count are determined by filtering the input only
against the store state loaded at call time and against emptiness: an input
key occurring twice (and absent from the store) is appended and counted
twice, while empty items are never appended nor counted. -/
theorem C10_addMany_input_not_deduped :
    (∀ (content : PyStr) (items : List PyStr),
        (TextSet_add_many content items).1
            = content ++ joinLines (addMany_newItems content items)
          ∧ (TextSet_add_many content items).2 = (addMany_newItems content items).length
          ∧ ([] : PyStr) ∉ addMany_newItems content items)
      ∧ TextSet_add_many [] [['a'], ['a']] = (['a', '\n', 'a', '\n'], 2) := by
  constructor
  · intro content items
    refine ⟨?_, ?_, ?_⟩
    · unfold TextSet_add_many
      by_cases h : (addMany_newItems content items).isEmpty
      · rw [if_pos h]
        simp only [List.isEmpty_iff.mp h]
        simp [joinLines]
      · rw [if_neg h]
    · unfold TextSet_add_many
      by_cases h : (addMany_newItems content items).isEmpty
      · rw [if_pos h]
        simp [List.isEmpty_iff.mp h]
      · rw [if_neg h]
    · intro hmem
      have := List.of_mem_filter hmem
      simp [List.isEmpty_iff] at this
  · decide

/-! ## src/review_hub/lock.py : file_lock

The contextmanager `file_lock(path)` is modelled as a trace semantics: the
events it performs, in order, together with the propagated result. `fn` is
the body of the `with file_lock(path): ...` block, a computation that either
returns a value or raises; `flockRes`, `unlockRes`, `closeRes` are the
outcomes of the corresponding OS calls. -/

inductive LockEv where
  | ensureFile   : LockEv  -- os.makedirs + open(path, "a+") creates the file if absent
  | flockTry     : LockEv  -- fcntl.flock(f, LOCK_EX)
  | fnRun        : LockEv  -- the body of the with-block runs
  | flockUnTry   : LockEv  -- fcntl.flock(f, LOCK_UN) attempted
  | closeTry     : LockEv  -- f.close() attempted
  deriving DecidableEq, Repr

/-- Python `try: body finally: fin` with an event trace: the finalizer events
always run; the body's outcome (value or raised exception) is then propagated. -/
def pyTryFinally {ε α : Type} (body : Except ε α × List LockEv) (fin : List LockEv) :
    Except ε α × List LockEv :=
  (body.1, body.2 ++ fin)

/-- Python `try: act except Exception: pass`: the outcome of `act` is
swallowed; only its trace remains. -/
def pySwallow {ε : Type} (act : Except ε Unit × List LockEv) : List LockEv :=
  act.2

/-- The body protected by the `try` in file_lock: acquire the lock, then
(only if acquisition succeeded) run the with-block body. -/
def file_lock_body {ε α : Type} (flockRes : Except ε Unit) (fn : Except ε α) :
    Except ε α × List LockEv :=
  match flockRes with
  | .error e => (.error e, [.flockTry])
  | .ok _ => (fn, [.flockTry, .fnRun])

/-- file_lock(path) around a body `fn`: ensure the lock file exists, then
try/finally with unlock and close attempts whose own failures are swallowed. -/
def file_lock {ε α : Type} (flockRes unlockRes closeRes : Except ε Unit)
    (fn : Except ε α) : Except ε α × List LockEv :=
  let inner := pyTryFinally (file_lock_body flockRes fn)
    (pySwallow (unlockRes, [.flockUnTry]) ++ pySwallow (closeRes, [.closeTry]))
  (inner.1, .ensureFile :: inner.2)

/-- C7: WithLock(path, fn) creates the lock file if absent, acquires the
exclusive lock, runs fn, and attempts the unlock (and close) on every path
before the result is returned or the exception re-raised: whatever fn's
outcome and whatever the unlock/close outcomes, the trace is
ensure-acquire-run-release-close and the propagated result is exactly fn's;
in particular an exception raised by fn is re-raised only after the release
attempt. If even the flock acquisition fails, the release is still attempted
and fn never runs. -/
theorem C7_file_lock_releases (ε α : Type) (flockRes unlockRes closeRes : Except ε Unit)
    (fn : Except ε α) :
    (flockRes = .ok () →
        file_lock flockRes unlockRes closeRes fn
          = (fn, [.ensureFile, .flockTry, .fnRun, .flockUnTry, .closeTry]))
      ∧ (∀ e, flockRes = .error e →
        file_lock flockRes unlockRes closeRes fn
          = (.error e, [.ensureFile, .flockTry, .flockUnTry, .closeTry])) := by
  constructor
  · intro hok
    subst hok
    rfl
  · intro e herr
    subst herr
    rfl

/-- C7 witness: a body that raises (modelled as `Except Nat` with error 7)
still produces the full release trace, and the error is propagated. -/
theorem C7_file_lock_releases_witness :
    file_lock (ε := Nat) (α := Unit) (.ok ()) (.ok ()) (.ok ()) (.error 7)
      = (.error 7, [.ensureFile, .flockTry, .fnRun, .flockUnTry, .closeTry]) :=
  (C7_file_lock_releases Nat Unit (.ok ()) (.ok ()) (.ok ()) (.error 7)).1 rfl

/-! ## src/review_hub/collect_coupang_browser.py : URL canonicalization and
identity key -/

/-- Python str.strip() on Lean strings. -/
def pyStripStr (s : String) : String :=
  ⟨pyStrip s.data⟩

/-- The literal of the regex `/vp/products/(\d+)`. -/
def vpLit : PyStr :=
  ['/', 'v', 'p', '/', 'p', 'r', 'o', 'd', 'u', 'c', 't', 's', '/']

/-- If `s = lit ++ rest`, return `rest`. -/
def dropLit : PyStr → PyStr → Option PyStr
  | [], s => some s
  | _ :: _, [] => none
  | c :: cs, d :: ds => if c = d then dropLit cs ds else none

/-- re.search(r"/vp/products/(\d+)", s): the first position where the literal
is followed by at least one digit yields the maximal digit run (group 1). -/
def findVpProductsId : PyStr → Option PyStr
  | [] => none
  | c :: rest =>
    match dropLit vpLit (c :: rest) with
    | some tl =>
      let ds := tl.takeWhile Char.isDigit
      if ds.isEmpty then findVpProductsId rest else some ds
    | none => findVpProductsId rest

/-- normalize_coupang_product_url: strip; if a `/vp/products/<pid>` occurs,
rebuild the stable URL `https://www.coupang.com/vp/products/<pid>`, else
return the stripped input unchanged. -/
def normalize_coupang_product_url (url : String) : String :=
  let s := pyStripStr url
  if s = "" then s
  else
    match findVpProductsId s.data with
    | none => s
    | some pid => "https://www.coupang.com/vp/products/" ++ String.mk pid

/-- Python "|".join(parts). -/
def pyJoinBar : List String → String
  | [] => ""
  | [s] => s
  | s :: rest => s ++ "|" ++ pyJoinBar rest

/-- _dedup_key_for_review (coupang): sha256 of the joined identity fields,
with the platform hard-coded to "coupang" and the body first hashed.
`h` abstracts hashlib.sha256(...).hexdigest(). -/
def coupang_dedup_key_for_review (h : String → String)
    (product_url author review_date body : String) : String :=
  h (pyJoinBar ["coupang", product_url, author, review_date, h body])

/-- The identity key the coupang collector computes for a raw review: the
product URL is canonicalized before keying (collect_reviews_for_product). -/
def coupang_review_identity_key (h : String → String)
    (raw_product_url author review_date body : String) : String :=
  coupang_dedup_key_for_review h (normalize_coupang_product_url raw_product_url)
    author review_date body

/-- C2 as frozen is violated on the URL canonicalization target: the code
rewrites the host to www.coupang.com, so the product identifier for
"https://x/vp/products/123?ref=xyz" is "https://www.coupang.com/vp/products/123",
not "https://x/vp/products/123" as the claim states. -/
theorem C2_counterexample :
    normalize_coupang_product_url "https://x/vp/products/123?ref=xyz"
        ≠ "https://x/vp/products/123"
      ∧ normalize_coupang_product_url "https://x/vp/products/123?ref=xyz"
        = "https://www.coupang.com/vp/products/123" := by
  constructor
  · decide
  · decide

theorem pyJoinBar_c2_shape (u x : String) :
    pyJoinBar ["coupang", u, "abc**", "2024-01-02", x]
      = "coupang" ++ "|" ++ u ++ "|" ++ "abc**" ++ "|" ++ "2024-01-02" ++ "|" ++ x := by
  show "coupang" ++ "|" ++ (u ++ "|" ++ ("abc**" ++ "|" ++ ("2024-01-02" ++ "|" ++ x)))
      = "coupang" ++ "|" ++ u ++ "|" ++ "abc**" ++ "|" ++ "2024-01-02" ++ "|" ++ x
  simp only [← String.append_assoc]

/-- C2 (amended): for the raw record {author:"abc**", date:"2024-01-02",
body:"good product"} with product URL "https://x/vp/products/123?ref=xyz",
the coupang collector canonicalizes the product identifier to
"https://www.coupang.com/vp/products/123", computes content_hash = H(body)
and identity key H("coupang|https://www.coupang.com/vp/products/123|abc**|"
++ "2024-01-02|" ++ content_hash) (platform hard-coded to "coupang"), where
H is sha256-hexdigest; and re-ingesting the same raw record after appending
"&page=2" to the product URL produces the identical identity key. -/
theorem C2_identity_key (h : String → String) :
    coupang_review_identity_key h "https://x/vp/products/123?ref=xyz"
        "abc**" "2024-01-02" "good product"
      = h ("coupang|https://www.coupang.com/vp/products/123|abc**|2024-01-02|"
            ++ h "good product")
    ∧ coupang_review_identity_key h "https://x/vp/products/123?ref=xyz&page=2"
        "abc**" "2024-01-02" "good product"
      = coupang_review_identity_key h "https://x/vp/products/123?ref=xyz"
        "abc**" "2024-01-02" "good product" := by
  have hnorm1 : normalize_coupang_product_url "https://x/vp/products/123?ref=xyz"
      = "https://www.coupang.com/vp/products/123" := by decide
  have hnorm2 : normalize_coupang_product_url "https://x/vp/products/123?ref=xyz&page=2"
      = "https://www.coupang.com/vp/products/123" := by decide
  constructor
  · unfold coupang_review_identity_key coupang_dedup_key_for_review
    rw [hnorm1]
    congr 1
  · unfold coupang_review_identity_key
    rw [hnorm1, hnorm2]

/-! ## src/review_hub/collect_ohou_browser.py : discover_goods_ids_openclaw
(stability-terminated scroll loop, C6) -/

/-- The order-preserving dedup with item cap at the tail of get_ids:
append each unseen id, stopping once max_goods ids are collected. -/
def dedupCapGo (maxGoods cnt : Nat) (seen : List Nat) : List Nat → List Nat
  | [] => []
  | i :: rest =>
    if i ∈ seen then dedupCapGo maxGoods cnt seen rest
    else if maxGoods ≤ cnt + 1 then [i]
    else i :: dedupCapGo maxGoods (cnt + 1) (i :: seen) rest

/-- get_ids: the ids extracted from the rendered page, deduplicated
preserving first-seen order and capped at max_goods. -/
def get_ids_dedup (maxGoods : Nat) (raw : List Nat) : List Nat :=
  dedupCapGo maxGoods 0 [] raw

/-- One comparison step of the stability loop: replace best and reset the
counter exactly when the new extraction is strictly larger, else increment. -/
def discover_step (cur best : List Nat) (stable : Nat) : List Nat × Nat :=
  if best.length < cur.length then (cur, 0) else (best, stable + 1)

/-- The scroll loop of discover_goods_ids_openclaw. `extract i` is the raw
id list the i-th evaluate call sees; returns (best, iterations executed). -/
def discover_go (extract : Nat → List Nat) (maxGoods stableIters : Nat) :
    Nat → Nat → List Nat → Nat → List Nat × Nat
  | 0, i, best, _ => (best, i)
  | fuel + 1, i, best, stable =>
    let cur := get_ids_dedup maxGoods (extract i)
    let bs := discover_step cur best stable
    if maxGoods ≤ bs.1.length then (bs.1, i + 1)
    else if stableIters ≤ bs.2 then (bs.1, i + 1)
    else discover_go extract maxGoods stableIters fuel (i + 1) bs.1 bs.2

/-- discover_goods_ids_openclaw: run the scroll loop for
range(max(1, max_scrolls)) iterations with the stability early stop. -/
def discover_goods_ids_openclaw (extract : Nat → List Nat)
    (maxScrolls maxGoods stableIters : Nat) : List Nat × Nat :=
  discover_go extract maxGoods stableIters (max 1 maxScrolls) 0 [] 0

/-- C6: with a mock source growing by one item per scroll for 3 scrolls and
then constant, stabilityThreshold = 2 and non-binding caps (defaults
max_scrolls = 40, max_goods = 5000), discovery executes exactly 5 scroll-loop
iterations (3 growth + 2 idle) and returns exactly the 3 distinct items; and
in general each iteration replaces its best list and resets the stability
counter to 0 exactly when the new extraction is strictly larger, otherwise
it keeps best and increments the counter. -/
theorem C6_stability_terminated_discovery :
    discover_goods_ids_openclaw (fun i => [101, 102, 103].take (min (i + 1) 3)) 40 5000 2
        = ([101, 102, 103], 5)
      ∧ (∀ (cur best : List Nat) (stable : Nat),
          best.length < cur.length → discover_step cur best stable = (cur, 0))
      ∧ (∀ (cur best : List Nat) (stable : Nat),
          ¬best.length < cur.length → discover_step cur best stable = (best, stable + 1)) := by
  refine ⟨by decide, ?_, ?_⟩
  · intro cur best stable hlt
    simp [discover_step, hlt]
  · intro cur best stable hlt
    simp [discover_step, hlt]

/-- C6 witness: the growth branch of the step at a concrete input. -/
theorem C6_stability_terminated_discovery_witness :
    discover_step [7] [] 0 = ([7], 0) :=
  C6_stability_terminated_discovery.2.1 [7] [] 0 (by decide)

/-! ## src/review_hub/collect_ohou_browser.py :
fetch_reviews_for_goods_ids_openclaw (early-stop pagination, C5)

A page of the per-goods review sub-listing is modelled by the dedup keys of
its reviews; `pageAt p = none` models a non-200 / malformed response. -/

/-- The per-review loop of one page: skip keys already in the run-scoped
seen-set, add the new ones; returns updated seen-set and new_in_page. -/
def processPage (seen : List String) : List String → List String × Nat
  | [] => (seen, 0)
  | k :: rest =>
    if k ∈ seen then processPage seen rest
    else
      let sn := processPage (k :: seen) rest
      (sn.1, sn.2 + 1)

/-- The per-goods pagination loop. Returns the list of (page, new_in_page)
pairs for every page actually fetched, together with the final seen-set.
Breaks: page cap, review cap, bad/empty response, short page
(len < per_page), and the early stop on zero net-new records. -/
def fetch_go (pageAt : Nat → Option (List String)) (perPage maxPages maxReviews : Nat) :
    Nat → Nat → Nat → List String → List (Nat × Nat) × List String
  | 0, _, _, seen => ([], seen)
  | fuel + 1, page, nfg, seen =>
    if maxPages < page then ([], seen)
    else if maxReviews ≤ nfg then ([], seen)
    else
      match pageAt page with
      | none => ([(page, 0)], seen)
      | some revs =>
        if revs.isEmpty then ([(page, 0)], seen)
        else
          let sn := processPage seen revs
          if revs.length < perPage then ([(page, sn.2)], sn.1)
          else if sn.2 = 0 then ([(page, sn.2)], sn.1)
          else
            let rec2 := fetch_go pageAt perPage maxPages maxReviews fuel (page + 1)
              (nfg + sn.2) sn.1
            ((page, sn.2) :: rec2.1, rec2.2)

/-- fetch_reviews_for_goods_ids_openclaw, pagination of a single goods item:
page starts at 1; the fuel max_pages + 1 never binds because the
`page > max_pages` check fires first. -/
def fetch_reviews_pages (pageAt : Nat → Option (List String))
    (perPage maxPages maxReviews : Nat) (seen0 : List String) :
    List (Nat × Nat) × List String :=
  fetch_go pageAt perPage maxPages maxReviews (maxPages + 1) 1 0 seen0

/-- The 3-page mock listing of the C5 scenario: page 3 repeats the records
of page 1; a page 4 exists in the environment but must never be requested. -/
def c5MockPages : Nat → Option (List String) := fun p =>
  if p = 1 then some ["a", "b"]
  else if p = 2 then some ["c", "d"]
  else if p = 3 then some ["a", "b"]
  else if p = 4 then some ["e", "f"]
  else none

theorem fetch_go_zero_is_last (pageAt : Nat → Option (List String))
    (perPage maxPages maxReviews : Nat) :
    ∀ (fuel page nfg : Nat) (seen : List String) (j p n : Nat),
      (fetch_go pageAt perPage maxPages maxReviews fuel page nfg seen).1.get? j
          = some (p, n) →
      n = 0 →
      j + 1 = (fetch_go pageAt perPage maxPages maxReviews fuel page nfg seen).1.length := by
  intro fuel
  induction fuel with
  | zero => intro page nfg seen j p n hj hn; simp [fetch_go] at hj
  | succ fuel ih =>
    intro page nfg seen j p n hj hn
    simp only [fetch_go] at hj ⊢
    by_cases h1 : maxPages < page
    · simp [h1] at hj
    · simp only [if_neg h1] at hj ⊢
      by_cases h2 : maxReviews ≤ nfg
      · simp [h2] at hj
      · simp only [if_neg h2] at hj ⊢
        cases hpa : pageAt page with
        | none =>
          simp only [hpa] at hj ⊢
          cases j with
          | zero => simp
          | succ j2 => simp at hj
        | some revs =>
          simp only [hpa] at hj ⊢
          by_cases h3 : revs.isEmpty
          · simp only [if_pos h3] at hj ⊢
            cases j with
            | zero => simp
            | succ j2 => simp at hj
          · simp only [if_neg h3] at hj ⊢
            by_cases h4 : revs.length < perPage
            · simp only [if_pos h4] at hj ⊢
              cases j with
              | zero => simp
              | succ j2 => simp at hj
            · simp only [if_neg h4] at hj ⊢
              by_cases h5 : (processPage seen revs).2 = 0
              · simp only [if_pos h5] at hj ⊢
                cases j with
                | zero => simp
                | succ j2 => simp at hj
              · simp only [if_neg h5] at hj ⊢
                cases j with
                | zero =>
                  simp only [List.get?_cons_zero, Option.some.injEq, Prod.mk.injEq] at hj
                  exact absurd (hj.2 ▸ hn) h5
                | succ j2 =>
                  simp only [List.get?_cons_succ] at hj
                  have := ih (page + 1) (nfg + (processPage seen revs).2)
                    (processPage seen revs).1 j2 p n hj hn
                  simp [← this]

/-- C5: early-stop pagination. Concretely, on the 3-page mock listing whose
page 3 holds only records already seen on page 1 (with per_page = 2 and
non-binding caps), exactly pages 1, 2, 3 are requested, with net-new counts
2, 2, 0 — no page 4 request although the environment defines one. Generally,
any fetched page with zero net-new records is the last page requested for
that item. -/
theorem C5_early_stop_pagination :
    (fetch_reviews_pages c5MockPages 2 50 800 []).1 = [(1, 2), (2, 2), (3, 0)]
      ∧ (∀ (pageAt : Nat → Option (List String)) (perPage maxPages maxReviews : Nat)
          (seen0 : List String) (j p n : Nat),
          (fetch_reviews_pages pageAt perPage maxPages maxReviews seen0).1.get? j
              = some (p, n) →
          n = 0 →
          j + 1 = (fetch_reviews_pages pageAt perPage maxPages maxReviews seen0).1.length) := by
  constructor
  · decide
  · intro pageAt perPage maxPages maxReviews seen0 j p n hj hn
    exact fetch_go_zero_is_last pageAt perPage maxPages maxReviews
      (maxPages + 1) 1 0 seen0 j p n hj hn

/-- C5 witness: the general early-stop property applied to the mock at the
page-3 entry. -/
theorem C5_early_stop_pagination_witness :
    (2 : Nat) + 1 = (fetch_reviews_pages c5MockPages 2 50 800 []).1.length :=
  C5_early_stop_pagination.2 c5MockPages 2 50 800 [] 2 3 0 (by decide) rfl

/-! ## src/review_hub/collect_coupang_browser.py :
discover_product_urls_for_brandshop (blocked-page fail-fast, C8) -/

/-- Substring test, Python `pat in s` on character lists. -/
def hasSubstrAux (pat : PyStr) : PyStr → Bool
  | [] => (dropLit pat []).isSome
  | c :: rest => (dropLit pat (c :: rest)).isSome || hasSubstrAux pat rest

/-- Python `"/vp/products/" in h`. -/
def strContainsVp (s : String) : Bool :=
  hasSubstrAux vpLit s.data

/-- Order-preserving normalize + dedup of the hrefs of one extraction
(the `out`/`s2` loop in the brandshop scroll body). -/
def normDedupGo (seen : List String) : List String → List String
  | [] => []
  | u :: rest =>
    let nu := normalize_coupang_product_url u
    if nu ∈ seen then normDedupGo seen rest
    else nu :: normDedupGo (nu :: seen) rest

/-- One brandshop page as the collector sees it: whether the loaded page
matches the blocked/CAPTCHA content fingerprint (detect_blocked_page), and
what each scroll-iteration extraction returns. -/
structure BrandPage where
  blocked : Option String
  extracts : Nat → List String

/-- The per-page scroll stability loop of discover_product_urls_for_brandshop
(no item cap inside; stability threshold only). -/
def coupang_scroll_go (extracts : Nat → List String) (stableIters : Nat) :
    Nat → Nat → List String → Nat → List String
  | 0, _, best, _ => best
  | fuel + 1, i, best, stable =>
    let cur := (extracts i).filter strContainsVp
    let out := normDedupGo [] cur
    let bs : List String × Nat :=
      if best.length < out.length then (out, 0) else (best, stable + 1)
    if stableIters ≤ bs.2 then bs.1
    else coupang_scroll_go extracts stableIters fuel (i + 1) bs.1 bs.2

/-- The merge of a page's best list into the global seen-set / url list,
with the max_products cap checked after each append. Returns
(seen, all_urls, new_this_page). -/
def mergeCapGo (cap : Nat) (seen all : List String) (n : Nat) :
    List String → List String × List String × Nat
  | [] => (seen, all, n)
  | u :: rest =>
    if u ∈ seen then mergeCapGo cap seen all n rest
    else
      let all2 := all ++ [u]
      if cap ≤ all2.length then (u :: seen, all2, n + 1)
      else mergeCapGo cap (u :: seen) all2 (n + 1) rest

/-- The page loop of discover_product_urls_for_brandshop. For each page:
navigate (the page number is recorded as visited), run detect_blocked_page
and raise immediately on a fingerprint match, else scroll-extract, merge,
and apply the cap / no-new-page stops. Returns the outcome (the url list,
or the raised error) and the list of visited pages. -/
def brandshop_go (env : Nat → BrandPage) (maxScrolls stableIters cap : Nat) :
    Nat → Nat → List String → List String → Except String (List String) × List Nat
  | 0, _, _, all => (.ok all, [])
  | fuel + 1, page, seen, all =>
    match (env page).blocked with
    | some msg => (.error msg, [page])
    | none =>
      let best := coupang_scroll_go (env page).extracts stableIters (max 1 maxScrolls) 0 [] 0
      let m := mergeCapGo cap seen all 0 best
      if cap ≤ m.2.1.length then (.ok m.2.1, [page])
      else if 1 < page ∧ m.2.2 = 0 then (.ok m.2.1, [page])
      else
        let rec2 := brandshop_go env maxScrolls stableIters cap fuel (page + 1) m.1 m.2.1
        (rec2.1, page :: rec2.2)

/-- discover_product_urls_for_brandshop over max_brand_pages pages. -/
def discover_product_urls_for_brandshop (env : Nat → BrandPage)
    (maxBrandPages maxScrolls stableIters cap : Nat) :
    Except String (List String) × List Nat :=
  brandshop_go env maxScrolls stableIters cap maxBrandPages 1 [] []

theorem brandshop_go_visited_ge (env : Nat → BrandPage)
    (maxScrolls stableIters cap : Nat) :
    ∀ (fuel page : Nat) (seen all : List String) (q : Nat),
      q ∈ (brandshop_go env maxScrolls stableIters cap fuel page seen all).2 →
      page ≤ q := by
  intro fuel
  induction fuel with
  | zero => intro page seen all q hq; simp [brandshop_go] at hq
  | succ fuel ih =>
    intro page seen all q hq
    simp only [brandshop_go] at hq
    cases hb : (env page).blocked with
    | some msg =>
      simp only [hb, List.mem_singleton] at hq
      exact hq ▸ Nat.le_refl page
    | none =>
      simp only [hb] at hq
      by_cases h1 : cap ≤ (mergeCapGo cap seen all 0
          (coupang_scroll_go (env page).extracts stableIters (max 1 maxScrolls) 0 [] 0)).2.1.length
      · simp only [if_pos h1, List.mem_singleton] at hq
        exact hq ▸ Nat.le_refl page
      · simp only [if_neg h1] at hq
        by_cases h2 : 1 < page ∧ (mergeCapGo cap seen all 0
            (coupang_scroll_go (env page).extracts stableIters (max 1 maxScrolls) 0 [] 0)).2.2 = 0
        · simp only [if_pos h2, List.mem_singleton] at hq
          exact hq ▸ Nat.le_refl page
        · simp only [if_neg h2, List.mem_cons] at hq
          rcases hq with hq | hq
          · exact hq ▸ Nat.le_refl page
          · exact Nat.le_of_succ_le (ih (page + 1) _ _ q hq)

theorem brandshop_go_blocked_aborts (env : Nat → BrandPage)
    (maxScrolls stableIters cap : Nat) :
    ∀ (fuel page : Nat) (seen all : List String) (p : Nat) (msg : String),
      p ∈ (brandshop_go env maxScrolls stableIters cap fuel page seen all).2 →
      (env p).blocked = some msg →
      (brandshop_go env maxScrolls stableIters cap fuel page seen all).1
          = Except.error msg
        ∧ ∀ q ∈ (brandshop_go env maxScrolls stableIters cap fuel page seen all).2,
            q ≤ p := by
  intro fuel
  induction fuel with
  | zero => intro page seen all p msg hp hb; simp [brandshop_go] at hp
  | succ fuel ih =>
    intro page seen all p msg hp hbp
    simp only [brandshop_go] at hp ⊢
    cases hb : (env page).blocked with
    | some m =>
      simp only [hb, List.mem_singleton] at hp
      subst hp
      rw [hbp] at hb
      cases hb
      exact ⟨rfl, by simp⟩
    | none =>
      simp only [hb] at hp ⊢
      by_cases h1 : cap ≤ (mergeCapGo cap seen all 0
          (coupang_scroll_go (env page).extracts stableIters (max 1 maxScrolls) 0 [] 0)).2.1.length
      · simp only [if_pos h1, List.mem_singleton] at hp
        subst hp
        rw [hbp] at hb
        cases hb
      · simp only [if_neg h1] at hp ⊢
        by_cases h2 : 1 < page ∧ (mergeCapGo cap seen all 0
            (coupang_scroll_go (env page).extracts stableIters (max 1 maxScrolls) 0 [] 0)).2.2 = 0
        · simp only [if_pos h2, List.mem_singleton] at hp
          subst hp
          rw [hbp] at hb
          cases hb
        · simp only [if_neg h2, List.mem_cons] at hp ⊢
          rcases hp with hp | hp
          · subst hp
            rw [hbp] at hb
            cases hb
          · have hrec := ih (page + 1) (mergeCapGo cap seen all 0
                (coupang_scroll_go (env page).extracts stableIters (max 1 maxScrolls) 0 [] 0)).1
              (mergeCapGo cap seen all 0
                (coupang_scroll_go (env page).extracts stableIters (max 1 maxScrolls) 0 [] 0)).2.1
              p msg hp hbp
            refine ⟨hrec.1, ?_⟩
            intro q hq
            rcases hq with hq | hq
            · rw [hq]
              exact Nat.le_of_succ_le (brandshop_go_visited_ge env maxScrolls stableIters cap
                fuel (page + 1) _ _ p hp)
            · exact hrec.2 q hq

/-- The concrete blocked environment for C8: page 1 is healthy and yields one
product URL, page 2 matches the blocked/CAPTCHA fingerprint. -/
def c8Env : Nat → BrandPage := fun p =>
  if p = 2 then { blocked := some "blocked: captcha_or_denied_selector", extracts := fun _ => [] }
  else { blocked := none,
         extracts := fun _ => ["https://www.coupang.com/vp/products/77?itemId=9"] }

/-- C8: blocked-page fail-fast. If any visited page of a brandshop discovery
call matches the blocked/CAPTCHA fingerprint, the call raises that error
immediately: the result is the error (no partial URL list is returned) and
no page after the blocked one is ever visited. Concretely, with page 2
blocked the call visits exactly pages 1 and 2 and raises. -/
theorem C8_blocked_fail_fast :
    (∀ (env : Nat → BrandPage) (maxBrandPages maxScrolls stableIters cap : Nat)
        (p : Nat) (msg : String),
        p ∈ (discover_product_urls_for_brandshop env maxBrandPages maxScrolls stableIters cap).2 →
        (env p).blocked = some msg →
        (discover_product_urls_for_brandshop env maxBrandPages maxScrolls stableIters cap).1
            = Except.error msg
          ∧ ∀ q ∈ (discover_product_urls_for_brandshop env maxBrandPages maxScrolls
              stableIters cap).2, q ≤ p)
      ∧ (discover_product_urls_for_brandshop c8Env 10 6 2 50).1
          = Except.error "blocked: captcha_or_denied_selector"
      ∧ (discover_product_urls_for_brandshop c8Env 10 6 2 50).2 = [1, 2] := by
  refine ⟨?_, by rfl, by decide⟩
  intro env maxBrandPages maxScrolls stableIters cap p msg hp hb
  exact brandshop_go_blocked_aborts env maxScrolls stableIters cap maxBrandPages 1 [] [] p msg hp hb

/-- C8 witness: the fail-fast property applied to the concrete environment
at its blocked page 2. -/
theorem C8_blocked_fail_fast_witness :
    (discover_product_urls_for_brandshop c8Env 10 6 2 50).1
        = Except.error "blocked: captcha_or_denied_selector"
      ∧ ∀ q ∈ (discover_product_urls_for_brandshop c8Env 10 6 2 50).2, q ≤ 2 :=
  C8_blocked_fail_fast.1 c8Env 10 6 2 50 2 "blocked: captcha_or_denied_selector"
    (by decide) (by decide)

/-! ## src/review_hub/ingest_ohou_json.py : upsert reconciliation (C1, C4, C9)

A sink tab is a list of rows, row number r being entry r - 1 (1-based, as in
the A1 addressing of the sink). Cells are strings; a row payload written by
the reconciler has exactly 15 cells (columns A..O), with collected_date in
column A (index 0) and the dedup key in column N (index 13). -/

abbrev Row := List String

/-- Read cell c of a row; absent cells read as "" (as the range scan does). -/
def cellOf (row : Row) (c : Nat) : String :=
  (row.get? c).getD ""

/-- `(colA[i][0] if ... else "").strip()` — the stripped column-A cell. -/
def rowAOf (row : Row) : String :=
  pyStripStr (cellOf row 0)

/-- The stripped column-N cell: the dedup key of a sheet row / row payload. -/
def rowKeyOf (row : Row) : String :=
  pyStripStr (cellOf row 13)

/-- The regex `^\d{4}-\d{2}-\d{2}$` (pat_date). -/
def isDateCell (s : String) : Bool :=
  match s.data with
  | [a, b, c, d, e, f, g, h2, i, j] =>
    a.isDigit && b.isDigit && c.isDigit && d.isDigit && (e == '-')
      && f.isDigit && g.isDigit && (h2 == '-') && i.isDigit && j.isDigit
  | _ => false

/-- First-match lookup in the key_to_row association list. -/
def lookupRow : List (String × Nat) → String → Option Nat
  | [], _ => none
  | (k, r) :: rest, key => if k = key then some r else lookupRow rest key

/-- The single scan over rows 3..max_scan_row building key_to_row (keeping
the first occurrence of each key, and only when both the column-A cell and
the key cell are non-empty) and `last` (the last row whose column-A cell
matches the date pattern; initialized to 2). -/
def scanGo : List Row → Nat → List (String × Nat) → Nat → List (String × Nat) × Nat
  | [], _, idx, last => (idx, last)
  | row :: rest, rn, idx, last =>
    let a := rowAOf row
    let k := rowKeyOf row
    let last2 := if a ≠ "" ∧ isDateCell a then rn else last
    let idx2 :=
      if a ≠ "" ∧ k ≠ "" ∧ lookupRow idx k = none then idx ++ [(k, rn)] else idx
    scanGo rest (rn + 1) idx2 last2

/-- The index-building scan of main(): rows 3..maxScan of the sheet. -/
def buildIndex (maxScan : Nat) (sheet : List Row) : List (String × Nat) × Nat :=
  scanGo ((sheet.drop 2).take (maxScan - 2)) 3 [] 2

/-- The key_to_row accumulation of the scan, in isolation. -/
def idxOf : List Row → Nat → List (String × Nat) → List (String × Nat)
  | [], _, idx => idx
  | row :: rest, rn, idx =>
    idxOf rest (rn + 1)
      (if rowAOf row ≠ "" ∧ rowKeyOf row ≠ "" ∧ lookupRow idx (rowKeyOf row) = none
       then idx ++ [(rowKeyOf row, rn)] else idx)

/-- The `last` accumulation of the scan, in isolation. -/
def lastOf : List Row → Nat → Nat → Nat
  | [], _, last => last
  | row :: rest, rn, last =>
    lastOf rest (rn + 1) (if rowAOf row ≠ "" ∧ isDateCell (rowAOf row) then rn else last)

/-- The split of the incoming row payloads into updates / appends / new keys. -/
structure PartOut where
  toUpdate : List (Nat × Row)
  toAppend : List Row
  newKeys : List String
  deriving Repr, DecidableEq

/-- The partition loop of main(): a payload row whose (stripped, non-empty)
key is already indexed becomes an in-place update at the indexed row;
otherwise it is appended and its key (when non-empty) recorded in new_keys. -/
def partitionGo (idx : List (String × Nat)) : List Row → PartOut
  | [] => ⟨[], [], []⟩
  | row :: rest =>
    let o := partitionGo idx rest
    let k := rowKeyOf row
    if k = "" then ⟨o.toUpdate, row :: o.toAppend, o.newKeys⟩
    else
      match lookupRow idx k with
      | some r => ⟨(r, row) :: o.toUpdate, o.toAppend, o.newKeys⟩
      | none => ⟨o.toUpdate, row :: o.toAppend, k :: o.newKeys⟩

/-- Stable insertion (ties keep the earlier element first), modelling the
stable `to_update.sort(key=lambda x: x[0])`. -/
def insertByRow (x : Nat × Row) : List (Nat × Row) → List (Nat × Row)
  | [] => [x]
  | y :: ys => if x.1 ≤ y.1 then x :: y :: ys else y :: insertByRow x ys

/-- Stable sort by target row number. -/
def sortByRow (l : List (Nat × Row)) : List (Nat × Row) :=
  l.foldr insertByRow []

/-- The run-grouping loop: extend the current run while the next row number
is exactly prev + 1, else flush the run and start a new one. -/
def groupRunsAux (runStart : Nat) (runRows : List Row) (prev : Nat) :
    List (Nat × Row) → List (Nat × List Row)
  | [] => [(runStart, runRows)]
  | (r, row) :: rest =>
    if r = prev + 1 then groupRunsAux runStart (runRows ++ [row]) r rest
    else (runStart, runRows) :: groupRunsAux r [row] r rest

/-- Group a sorted update list into maximal contiguous row runs; one batched
`client.update(f"{tab}!A{start}:O{end}", run_rows)` call is issued per run. -/
def groupRuns : List (Nat × Row) → List (Nat × List Row)
  | [] => []
  | (r, row) :: rest => groupRunsAux r [row] r rest

/-- Extend the sheet with empty rows up to n rows (the sink grid). -/
def padTo (sheet : List Row) (n : Nat) : List Row :=
  sheet ++ List.replicate (n - sheet.length) []

/-- Row r of the sheet (1-based); absent rows read as empty. -/
def readRow (sheet : List Row) (r : Nat) : Row :=
  (sheet.get? (r - 1)).getD []

/-- Writing a 15-cell payload over range A{r}:O{r}: columns A..O are
replaced, any cells beyond column O keep their old values. -/
def mergeRow (old new : Row) : Row :=
  new ++ old.drop 15

/-- Write one payload row at row number r. -/
def writeRow (sheet : List Row) (r : Nat) (row : Row) : List Row :=
  (padTo sheet r).set (r - 1) (mergeRow (readRow sheet r) row)

/-- Write consecutive payload rows starting at row number r
(one `client.update(A{r}:O{r + len - 1})` call). -/
def writeRows (sheet : List Row) (r : Nat) : List Row → List Row
  | [] => sheet
  | row :: rest => writeRows (writeRow sheet r row) (r + 1) rest

/-- Apply a list of single-row writes in order. -/
def applyEach (sheet : List Row) (l : List (Nat × Row)) : List Row :=
  l.foldl (fun s p => writeRow s p.1 p.2) sheet

/-- Annotate consecutive rows with their row numbers starting at st. -/
def withRows (st : Nat) : List Row → List (Nat × Row)
  | [] => []
  | r :: rs => (st, r) :: withRows (st + 1) rs

/-- The single-row writes a run list performs. -/
def flattenRuns (runs : List (Nat × List Row)) : List (Nat × Row) :=
  runs.flatMap (fun p => withRows p.1 p.2)

/-- Chunk accumulation: `cur` is the open chunk, `k` how many more rows it
may still take. -/
def chunksAcc (n : Nat) (cur : List Row) (k : Nat) : List Row → List (List Row)
  | [] => [cur]
  | x :: xs =>
    match k with
    | 0 => cur :: chunksAcc n [x] (n - 1) xs
    | k2 + 1 => chunksAcc n (cur ++ [x]) k2 xs

/-- `to_append[i : i + batch_size]` chunking. -/
def chunksOf (n : Nat) : List Row → List (List Row)
  | [] => []
  | x :: xs => chunksAcc n [x] (n - 1) xs

theorem chunksAcc_spec (n : Nat) :
    ∀ (xs cur : List Row) (k : Nat),
      chunksAcc n cur k xs = (cur ++ xs.take k) :: chunksOf n (xs.drop k) := by
  intro xs
  induction xs with
  | nil => intro cur k; simp [chunksAcc, chunksOf]
  | cons x xs ih =>
    intro cur k
    cases k with
    | zero => simp [chunksAcc, chunksOf]
    | succ k2 =>
      show chunksAcc n (cur ++ [x]) k2 xs
          = (cur ++ (x :: xs).take (k2 + 1)) :: chunksOf n ((x :: xs).drop (k2 + 1))
      rw [ih (cur ++ [x]) k2]
      simp

theorem chunksOf_cons (n : Nat) (x : Row) (xs : List Row) :
    chunksOf n (x :: xs) = (x :: xs.take (n - 1)) :: chunksOf n (xs.drop (n - 1)) := by
  show chunksAcc n [x] (n - 1) xs = _
  rw [chunksAcc_spec n xs [x] (n - 1)]
  simp

/-- Result of the append loop: final sheet, the batched append-write calls,
the key slices persisted to the IdentityStore (one add_many per chunk, in
order), and the appended-row count. -/
structure AppendOut where
  sheet : List Row
  writes : List (Nat × List Row)
  persisted : List (List String)
  count : Nat

/-- The append loop of main(): write each chunk at the advancing cursor,
then persist `new_keys[i : i + len(chunk)]`; i advances by the chunk length. -/
def appendLoopGo (newKeys : List String) :
    List (List Row) → List Row → Nat → Nat → AppendOut
  | [], sheet, _, _ => ⟨sheet, [], [], 0⟩
  | c :: rest, sheet, nextRow, i =>
    let sheet2 := writeRows sheet nextRow c
    let keys := (newKeys.drop i).take c.length
    let o := appendLoopGo newKeys rest sheet2 (nextRow + c.length) (i + c.length)
    ⟨o.sheet, (nextRow, c) :: o.writes, keys :: o.persisted, c.length + o.count⟩

/-- The interleaved sink/store events of the append loop: each chunk's
batched write followed immediately by the add_many of its key slice. -/
inductive SinkEvent where
  | write (startRow : Nat) (rows : List Row) : SinkEvent
  | persist (keys : List String) : SinkEvent
  deriving DecidableEq, Repr

/-- The event trace of the (fully successful) append loop. -/
def appendEventsGo (newKeys : List String) : List (List Row) → Nat → Nat → List SinkEvent
  | [], _, _ => []
  | c :: rest, nextRow, i =>
    .write nextRow c :: .persist ((newKeys.drop i).take c.length)
      :: appendEventsGo newKeys rest (nextRow + c.length) (i + c.length)

/-- The append loop when the sink write of chunk j succeeds iff `ok j`:
a failing `client.update` raises, aborting the loop before that chunk's
add_many, so only the key slices of the chunks written so far persist. -/
def appendLoopFail (ok : Nat → Bool) (newKeys : List String) :
    List (List Row) → Nat → Nat → Nat → List (List String)
  | [], _, _, _ => []
  | c :: rest, nextRow, i, j =>
    if ok j then
      ((newKeys.drop i).take c.length)
        :: appendLoopFail ok newKeys rest (nextRow + c.length) (i + c.length) (j + 1)
    else []

/-- The observable outcome of one reconciliation run. -/
structure RecResult where
  sheet : List Row
  updated : Nat
  appended : Nat
  updateWrites : List (Nat × List Row)
  appendWrites : List (Nat × List Row)
  persisted : List (List String)
  newKeys : List String

/-- Reconcile(tab, batch): scan the sink once building key_to_row and last;
partition the payload rows into updates and appends; write the updates as
one batched call per maximal contiguous run; append the rest in chunks of
batch_size starting at last + 1, persisting each chunk's dedup keys right
after its write. -/
def reconcile (maxScan bs : Nat) (sheet batch : List Row) : RecResult :=
  let il := buildIndex maxScan sheet
  let po := partitionGo il.1 batch
  let runs := groupRuns (sortByRow po.toUpdate)
  let sheet1 := runs.foldl (fun s rn => writeRows s rn.1 rn.2) sheet
  let app := appendLoopGo po.newKeys (chunksOf bs po.toAppend) sheet1 (il.2 + 1) 0
  { sheet := app.sheet
    updated := (runs.map (fun rn => rn.2.length)).sum
    appended := app.count
    updateWrites := runs
    appendWrites := app.writes
    persisted := app.persisted
    newKeys := po.newKeys }

/-! ### C4 : contiguous-run batching -/

theorem withRows_append (a : List Row) (b : Row) :
    ∀ st, withRows st (a ++ [b]) = withRows st a ++ [(st + a.length, b)] := by
  induction a with
  | nil => intro st; simp [withRows]
  | cons x xs ih =>
    intro st
    show (st, x) :: withRows (st + 1) (xs ++ [b])
        = (st, x) :: withRows (st + 1) xs ++ [(st + (x :: xs).length, b)]
    rw [ih (st + 1)]
    have harith : st + 1 + xs.length = st + (x :: xs).length := by
      simp only [List.length_cons]; omega
    rw [harith]
    simp

theorem groupRunsAux_flatten (rest : List (Nat × Row)) :
    ∀ (s p : Nat) (rows : List Row), p + 1 = s + rows.length →
      flattenRuns (groupRunsAux s rows p rest) = withRows s rows ++ rest := by
  induction rest with
  | nil =>
    intro s p rows _
    simp [groupRunsAux, flattenRuns]
  | cons x rest ih =>
    obtain ⟨r, row⟩ := x
    intro s p rows hinv
    simp only [groupRunsAux]
    by_cases hr : r = p + 1
    · rw [if_pos hr]
      have hinv2 : r + 1 = s + (rows ++ [row]).length := by
        simp only [List.length_append, List.length_cons, List.length_nil]
        omega
      rw [ih s r (rows ++ [row]) hinv2, withRows_append]
      have hsr : s + rows.length = r := by omega
      rw [hsr]
      simp
    · rw [if_neg hr]
      have hcons : flattenRuns ((s, rows) :: groupRunsAux r [row] r rest)
          = withRows s rows ++ flattenRuns (groupRunsAux r [row] r rest) := by
        simp [flattenRuns]
      have hinv3 : r + 1 = r + ([row] : List Row).length := by simp
      rw [hcons, ih r r [row] hinv3]
      simp [withRows]

theorem groupRuns_flatten (l : List (Nat × Row)) : flattenRuns (groupRuns l) = l := by
  cases l with
  | nil => rfl
  | cons x rest =>
    obtain ⟨r, row⟩ := x
    show flattenRuns (groupRunsAux r [row] r rest) = (r, row) :: rest
    have hinv : r + 1 = r + ([row] : List Row).length := by simp
    rw [groupRunsAux_flatten rest r r [row] hinv]
    simp [withRows]

theorem groupRunsAux_head (rest : List (Nat × Row)) :
    ∀ (s p : Nat) (rows : List Row),
      (groupRunsAux s rows p rest).head?.map Prod.fst = some s := by
  induction rest with
  | nil => intro s p rows; rfl
  | cons x rest ih =>
    obtain ⟨r, row⟩ := x
    intro s p rows
    simp only [groupRunsAux]
    by_cases hr : r = p + 1
    · rw [if_pos hr]; exact ih s r (rows ++ [row])
    · rw [if_neg hr]; rfl

theorem groupRunsAux_chain (rest : List (Nat × Row)) :
    ∀ (s p : Nat) (rows : List Row), p + 1 = s + rows.length →
      List.Chain' (fun a b => b.1 ≠ a.1 + a.2.length) (groupRunsAux s rows p rest) := by
  induction rest with
  | nil => intro s p rows _; simp [groupRunsAux]
  | cons x rest ih =>
    obtain ⟨r, row⟩ := x
    intro s p rows hinv
    simp only [groupRunsAux]
    by_cases hr : r = p + 1
    · rw [if_pos hr]
      have hinv2 : r + 1 = s + (rows ++ [row]).length := by
        simp only [List.length_append, List.length_cons, List.length_nil]
        omega
      exact ih s r (rows ++ [row]) hinv2
    · rw [if_neg hr]
      apply List.chain'_cons'.mpr
      constructor
      · intro y hy
        have hh := groupRunsAux_head rest r r [row]
        rw [Option.mem_def] at hy
        rw [hy] at hh
        simp only [Option.map_some'] at hh
        have hy1 : y.1 = r := Option.some.inj hh
        rw [hy1]
        show r ≠ s + rows.length
        intro hcontra
        exact hr (by omega)
      · have hinv3 : r + 1 = r + ([row] : List Row).length := by simp
        exact ih r r [row] hinv3

/-- A 15-cell payload row with collected_date d (column A) and dedup key k
(column N). -/
def mkPayloadRow (d k : String) : Row :=
  [d, "", "", "", "", "", "", "", "", "", "", "", "", k, ""]

/-- A sink whose keyed rows sit at row numbers 5, 6, 7, 10 and 11. -/
def c4Sheet : List Row :=
  [[], [], [], [],
   mkPayloadRow "2024-01-01" "k5", mkPayloadRow "2024-01-01" "k6",
   mkPayloadRow "2024-01-01" "k7", [], [],
   mkPayloadRow "2024-01-01" "k10", mkPayloadRow "2024-01-01" "k11"]

/-- A batch hitting exactly those five keys (in scrambled order). -/
def c4Batch : List Row :=
  [mkPayloadRow "2024-01-02" "k10", mkPayloadRow "2024-01-02" "k5",
   mkPayloadRow "2024-01-02" "k11", mkPayloadRow "2024-01-02" "k6",
   mkPayloadRow "2024-01-02" "k7"]

/-- C4: the reconciler sorts the updates by target row, groups them into
maximal contiguous runs, and issues one batched write per run. For update
targets at rows {5,6,7,10,11} it issues exactly 2 batched writes — the run
of 3 rows starting at row 5 and the run of 2 rows starting at row 10 — not
5. In general the grouped runs flatten back to exactly the sorted row-writes
(one write covers each consecutive row once) and adjacent runs are never
mergeable (maximality). -/
theorem C4_contiguous_run_batching :
    ((reconcile 50000 20 c4Sheet c4Batch).updateWrites.map (fun w => (w.1, w.2.length))
        = [(5, 3), (10, 2)])
      ∧ (reconcile 50000 20 c4Sheet c4Batch).updateWrites.length = 2
      ∧ (reconcile 50000 20 c4Sheet c4Batch).updated = 5
      ∧ (reconcile 50000 20 c4Sheet c4Batch).appendWrites = []
      ∧ (∀ l, flattenRuns (groupRuns l) = l)
      ∧ (∀ l, List.Chain' (fun a b => b.1 ≠ a.1 + a.2.length) (groupRuns l)) := by
  refine ⟨by decide, by decide, by decide, by decide, groupRuns_flatten, ?_⟩
  intro l
  cases l with
  | nil => simp [groupRuns]
  | cons x rest =>
    obtain ⟨r, row⟩ := x
    exact groupRunsAux_chain rest r r [row] (by simp)

/-! ### C9 : dedup keys persisted only after their chunk is written -/

/-- The chunks annotated with the sink row each one is written at. -/
def cursorChunks (st : Nat) : List (List Row) → List (Nat × List Row)
  | [] => []
  | c :: rest => (st, c) :: cursorChunks (st + c.length) rest

theorem partition_newKeys_eq (idx : List (String × Nat)) (B : List Row)
    (hk : ∀ b ∈ B, rowKeyOf b ≠ "") :
    (partitionGo idx B).newKeys = (partitionGo idx B).toAppend.map rowKeyOf := by
  induction B with
  | nil => rfl
  | cons b rest ih =>
    have hb : rowKeyOf b ≠ "" := hk b (List.mem_cons_self b rest)
    have hrest := ih (fun x hx => hk x (List.mem_cons_of_mem b hx))
    simp only [partitionGo]
    rw [if_neg hb]
    cases lookupRow idx (rowKeyOf b) with
    | some r => simpa using hrest
    | none => simp [hrest]

theorem chunksOf_flatten_aux (n : Nat) :
    ∀ (m : Nat) (l : List Row), l.length ≤ m → (chunksOf n l).flatten = l := by
  intro m
  induction m with
  | zero =>
    intro l h
    have : l = [] := List.eq_nil_of_length_eq_zero (Nat.le_zero.mp h)
    subst this
    rfl
  | succ m ih =>
    intro l h
    cases l with
    | nil => rfl
    | cons x xs =>
      rw [chunksOf_cons, List.flatten_cons]
      rw [ih (xs.drop (n - 1)) (by simp only [List.length_drop]
                                   simp only [List.length_cons] at h
                                   omega)]
      simp [List.cons_append, List.take_append_drop]

theorem chunksOf_flatten (n : Nat) (l : List Row) : (chunksOf n l).flatten = l :=
  chunksOf_flatten_aux n l.length l (Nat.le_refl _)

theorem slice_head (f : Row → String) (keys : List String) (c : List Row)
    (rest : List (List Row)) (i : Nat)
    (h : keys.drop i = ((c :: rest).flatten).map f) :
    (keys.drop i).take c.length = c.map f := by
  rw [h, List.flatten_cons, List.map_append]
  rw [show c.length = (c.map f).length from (List.length_map c f).symm]
  exact List.take_left _ _

theorem slice_rest (f : Row → String) (keys : List String) (c : List Row)
    (rest : List (List Row)) (i : Nat)
    (h : keys.drop i = ((c :: rest).flatten).map f) :
    keys.drop (i + c.length) = (rest.flatten).map f := by
  have hsplit : keys.drop (i + c.length) = (keys.drop i).drop c.length := by
    rw [List.drop_drop]
  rw [hsplit, h, List.flatten_cons, List.map_append]
  rw [show c.length = (c.map f).length from (List.length_map c f).symm]
  exact List.drop_left _ _

theorem appendEventsGo_spec (f : Row → String) :
    ∀ (chunks : List (List Row)) (keys : List String) (st i : Nat),
      keys.drop i = (chunks.flatten).map f →
      appendEventsGo keys chunks st i
        = (cursorChunks st chunks).flatMap
            (fun p => [SinkEvent.write p.1 p.2, SinkEvent.persist (p.2.map f)]) := by
  intro chunks
  induction chunks with
  | nil => intro keys st i _; rfl
  | cons c rest ih =>
    intro keys st i h
    simp only [appendEventsGo, cursorChunks, List.flatMap_cons]
    rw [slice_head f keys c rest i h,
      ih keys (st + c.length) (i + c.length) (slice_rest f keys c rest i h)]
    rfl

theorem appendLoopGo_persisted (f : Row → String) :
    ∀ (chunks : List (List Row)) (keys : List String) (sheet : List Row) (st i : Nat),
      keys.drop i = (chunks.flatten).map f →
      (appendLoopGo keys chunks sheet st i).persisted
        = chunks.map (fun c => c.map f) := by
  intro chunks
  induction chunks with
  | nil => intro keys sheet st i _; rfl
  | cons c rest ih =>
    intro keys sheet st i h
    simp only [appendLoopGo, List.map_cons]
    rw [slice_head f keys c rest i h,
      ih keys _ (st + c.length) (i + c.length) (slice_rest f keys c rest i h)]

theorem appendLoopGo_writes :
    ∀ (chunks : List (List Row)) (keys : List String) (sheet : List Row) (st i : Nat),
      (appendLoopGo keys chunks sheet st i).writes = cursorChunks st chunks := by
  intro chunks
  induction chunks with
  | nil => intro keys sheet st i; rfl
  | cons c rest ih =>
    intro keys sheet st i
    simp only [appendLoopGo, cursorChunks]
    rw [ih]

theorem appendLoopGo_count :
    ∀ (chunks : List (List Row)) (keys : List String) (sheet : List Row) (st i : Nat),
      (appendLoopGo keys chunks sheet st i).count = chunks.flatten.length := by
  intro chunks
  induction chunks with
  | nil => intro keys sheet st i; rfl
  | cons c rest ih =>
    intro keys sheet st i
    simp only [appendLoopGo, List.flatten_cons, List.length_append]
    rw [ih]

theorem appendLoopFail_spec (ok : Nat → Bool) (f : Row → String) (j0 : Nat)
    (hok : ∀ t, t < j0 → ok t = true) (hfail : ok j0 = false) :
    ∀ (chunks : List (List Row)) (keys : List String) (st i j : Nat),
      keys.drop i = (chunks.flatten).map f → j ≤ j0 →
      appendLoopFail ok keys chunks st i j
        = ((chunks.take (j0 - j)).map (fun c => c.map f)) := by
  intro chunks
  induction chunks with
  | nil => intro keys st i j _ _; simp [appendLoopFail]
  | cons c rest ih =>
    intro keys st i j h hj
    by_cases hjj : j = j0
    · subst hjj
      simp only [appendLoopFail, hfail, Bool.false_eq_true, if_false]
      simp
    · have hlt : j < j0 := Nat.lt_of_le_of_ne hj hjj
      simp only [appendLoopFail, hok j hlt, if_true]
      rw [slice_head f keys c rest i h,
        ih keys (st + c.length) (i + c.length) (j + 1)
          (slice_rest f keys c rest i h) hlt]
      have : j0 - j = (j0 - (j + 1)) + 1 := by omega
      rw [this, List.take_succ_cons, List.map_cons]

/-- C9: during reconciliation of a batch whose records all carry a non-empty
dedup key, the keys persisted to the IdentityStore are exactly, chunk by
chunk, the dedup keys of the appended chunks' rows; the event trace of the
append phase is, for each chunk in order, its batched sink write immediately
followed by the add_many of exactly that chunk's keys; and if the sink write
of chunk j0 raises (all earlier writes succeeding), exactly the key slices
of chunks 0..j0-1 are persisted — no key of the failing or any later chunk. -/
theorem C9_persist_only_after_write (maxScan bs : Nat) (sheet batch : List Row)
    (hkeys : ∀ b ∈ batch, rowKeyOf b ≠ "") :
    ((reconcile maxScan bs sheet batch).persisted
        = (chunksOf bs (partitionGo (buildIndex maxScan sheet).1 batch).toAppend).map
            (fun c => c.map rowKeyOf))
      ∧ ((reconcile maxScan bs sheet batch).appendWrites
        = cursorChunks ((buildIndex maxScan sheet).2 + 1)
            (chunksOf bs (partitionGo (buildIndex maxScan sheet).1 batch).toAppend))
      ∧ (∀ st : Nat,
          appendEventsGo (partitionGo (buildIndex maxScan sheet).1 batch).newKeys
              (chunksOf bs (partitionGo (buildIndex maxScan sheet).1 batch).toAppend) st 0
            = (cursorChunks st
                (chunksOf bs (partitionGo (buildIndex maxScan sheet).1 batch).toAppend)).flatMap
                (fun p => [SinkEvent.write p.1 p.2, SinkEvent.persist (p.2.map rowKeyOf)]))
      ∧ (∀ (ok : Nat → Bool) (j0 st : Nat), (∀ t, t < j0 → ok t = true) → ok j0 = false →
          appendLoopFail ok (partitionGo (buildIndex maxScan sheet).1 batch).newKeys
              (chunksOf bs (partitionGo (buildIndex maxScan sheet).1 batch).toAppend) st 0 0
            = (((chunksOf bs (partitionGo (buildIndex maxScan sheet).1 batch).toAppend).take j0).map
                (fun c => c.map rowKeyOf))) := by
  have halign := partition_newKeys_eq (buildIndex maxScan sheet).1 batch hkeys
  have hinv : (partitionGo (buildIndex maxScan sheet).1 batch).newKeys.drop 0
      = ((chunksOf bs (partitionGo (buildIndex maxScan sheet).1 batch).toAppend).flatten).map
          rowKeyOf := by
    rw [List.drop_zero, chunksOf_flatten, halign]
  refine ⟨?_, ?_, ?_, ?_⟩
  · exact appendLoopGo_persisted rowKeyOf _ _ _ _ 0 hinv
  · exact appendLoopGo_writes _ _ _ _ 0
  · intro st
    exact appendEventsGo_spec rowKeyOf _ _ st 0 hinv
  · intro ok j0 st hok hfail
    have := appendLoopFail_spec ok rowKeyOf j0 hok hfail
      (chunksOf bs (partitionGo (buildIndex maxScan sheet).1 batch).toAppend)
      (partitionGo (buildIndex maxScan sheet).1 batch).newKeys st 0 0 hinv (Nat.zero_le j0)
    simpa using this

/-- C9 witness: a single fresh record on an empty sink persists exactly its
key, in one chunk. -/
theorem C9_persist_only_after_write_witness :
    (reconcile 50000 20 [] [mkPayloadRow "2024-01-02" "kw1"]).persisted = [["kw1"]] :=
  ((C9_persist_only_after_write 50000 20 [] [mkPayloadRow "2024-01-02" "kw1"]
    (by decide)).1).trans (by decide)

/-! ### C1 stage A : characterizing the sink scan (buildIndex) -/

theorem scanGo_eq :
    ∀ (rows : List Row) (rn : Nat) (idx : List (String × Nat)) (last : Nat),
      scanGo rows rn idx last = (idxOf rows rn idx, lastOf rows rn last) := by
  intro rows
  induction rows with
  | nil => intro rn idx last; rfl
  | cons row rest ih =>
    intro rn idx last
    simp only [scanGo, idxOf, lastOf]
    rw [ih]

theorem lastOf_mono :
    ∀ (rows : List Row) (rn last : Nat), last ≤ rn → last ≤ lastOf rows rn last := by
  intro rows
  induction rows with
  | nil => intro rn last h; exact Nat.le_refl last |>.trans (Nat.le_refl _)
  | cons row rest ih =>
    intro rn last h
    simp only [lastOf]
    by_cases hc : rowAOf row ≠ "" ∧ isDateCell (rowAOf row)
    · rw [if_pos hc]
      exact h.trans (ih (rn + 1) rn (Nat.le_succ rn))
    · rw [if_neg hc]
      exact ih (rn + 1) last (h.trans (Nat.le_succ rn))

theorem lastOf_range :
    ∀ (rows : List Row) (rn last : Nat),
      lastOf rows rn last = last
        ∨ (rn ≤ lastOf rows rn last ∧ lastOf rows rn last < rn + rows.length) := by
  intro rows
  induction rows with
  | nil => intro rn last; exact Or.inl rfl
  | cons row rest ih =>
    intro rn last
    simp only [lastOf, List.length_cons]
    by_cases hc : rowAOf row ≠ "" ∧ isDateCell (rowAOf row)
    · rw [if_pos hc]
      rcases ih (rn + 1) rn with h | h
      · right; constructor
        · omega
        · omega
      · right; constructor
        · omega
        · omega
    · rw [if_neg hc]
      rcases ih (rn + 1) last with h | h
      · exact Or.inl h
      · right; constructor
        · omega
        · omega

theorem lastOf_ge_dateHit :
    ∀ (rows : List Row) (rn last j : Nat) (row : Row),
      rows.get? j = some row → rowAOf row ≠ "" → isDateCell (rowAOf row) →
      rn + j ≤ lastOf rows rn last := by
  intro rows
  induction rows with
  | nil => intro rn last j row hj; simp at hj
  | cons row0 rest ih =>
    intro rn last j row hj ha hd
    cases j with
    | zero =>
      simp only [List.get?_cons_zero, Option.some.injEq] at hj
      subst hj
      simp only [lastOf, if_pos (And.intro ha hd), Nat.add_zero]
      exact lastOf_mono rest (rn + 1) rn (Nat.le_succ rn)
    | succ j2 =>
      simp only [List.get?_cons_succ] at hj
      simp only [lastOf]
      by_cases hc : rowAOf row0 ≠ "" ∧ isDateCell (rowAOf row0)
      · rw [if_pos hc]
        have := ih (rn + 1) rn j2 row hj ha hd
        omega
      · rw [if_neg hc]
        have := ih (rn + 1) last j2 row hj ha hd
        omega

theorem lookupRow_append_some (a b : List (String × Nat)) (k : String) (r : Nat)
    (h : lookupRow a k = some r) : lookupRow (a ++ b) k = some r := by
  induction a with
  | nil => simp [lookupRow] at h
  | cons x rest ih =>
    obtain ⟨k2, r2⟩ := x
    simp only [lookupRow, List.cons_append] at h ⊢
    by_cases hk : k2 = k
    · rwa [if_pos hk] at h ⊢
    · rw [if_neg hk] at h ⊢
      exact ih h

theorem lookupRow_append_none (a b : List (String × Nat)) (k : String)
    (h : lookupRow a k = none) : lookupRow (a ++ b) k = lookupRow b k := by
  induction a with
  | nil => rfl
  | cons x rest ih =>
    obtain ⟨k2, r2⟩ := x
    simp only [lookupRow, List.cons_append] at h ⊢
    by_cases hk : k2 = k
    · rw [if_pos hk] at h; cases h
    · rw [if_neg hk] at h ⊢
      exact ih h

theorem lookupRow_append_inv (a b : List (String × Nat)) (k : String) (r : Nat)
    (h : lookupRow (a ++ b) k = some r) :
    lookupRow a k = some r ∨ (lookupRow a k = none ∧ lookupRow b k = some r) := by
  cases ha : lookupRow a k with
  | none => right; exact ⟨rfl, by rwa [lookupRow_append_none a b k ha] at h⟩
  | some r2 =>
    left
    have h2 := lookupRow_append_some a b k r2 ha
    have hr : r2 = r := Option.some.inj (h2.symm.trans h)
    rw [hr]

theorem lookupRow_idxOf_preserve :
    ∀ (rows : List Row) (rn : Nat) (idx : List (String × Nat)) (k : String) (r : Nat),
      lookupRow idx k = some r → lookupRow (idxOf rows rn idx) k = some r := by
  intro rows
  induction rows with
  | nil => intro rn idx k r h; exact h
  | cons row rest ih =>
    intro rn idx k r h
    simp only [idxOf]
    by_cases hc : rowAOf row ≠ "" ∧ rowKeyOf row ≠ ""
        ∧ lookupRow idx (rowKeyOf row) = none
    · rw [if_pos hc]
      exact ih (rn + 1) _ k r (lookupRow_append_some idx _ k r h)
    · rw [if_neg hc]
      exact ih (rn + 1) idx k r h

theorem idxOf_sound :
    ∀ (rows : List Row) (rn : Nat) (idx : List (String × Nat)) (k : String) (r : Nat),
      lookupRow (idxOf rows rn idx) k = some r →
      lookupRow idx k = some r
        ∨ (∃ j row, rows.get? j = some row ∧ r = rn + j
            ∧ rowAOf row ≠ "" ∧ rowKeyOf row = k) := by
  intro rows
  induction rows with
  | nil => intro rn idx k r h; exact Or.inl h
  | cons row0 rest ih =>
    intro rn idx k r h
    simp only [idxOf] at h
    by_cases hc : rowAOf row0 ≠ "" ∧ rowKeyOf row0 ≠ ""
        ∧ lookupRow idx (rowKeyOf row0) = none
    · rw [if_pos hc] at h
      rcases ih (rn + 1) _ k r h with h2 | h2
      · rcases lookupRow_append_inv idx [(rowKeyOf row0, rn)] k r h2 with h3 | h3
        · exact Or.inl h3
        · right
          refine ⟨0, row0, rfl, ?_, hc.1, ?_⟩
          · simp only [lookupRow] at h3
            by_cases hk : rowKeyOf row0 = k
            · rw [if_pos hk] at h3
              have : rn = r := Option.some.inj h3.2
              omega
            · rw [if_neg hk] at h3
              cases h3.2
          · simp only [lookupRow] at h3
            by_cases hk : rowKeyOf row0 = k
            · exact hk
            · rw [if_neg hk] at h3
              cases h3.2
      · rcases h2 with ⟨j, row, hj, hr, ha, hk⟩
        exact Or.inr ⟨j + 1, row, by simpa using hj, by omega, ha, hk⟩
    · rw [if_neg hc] at h
      rcases ih (rn + 1) idx k r h with h2 | h2
      · exact Or.inl h2
      · rcases h2 with ⟨j, row, hj, hr, ha, hk⟩
        exact Or.inr ⟨j + 1, row, by simpa using hj, by omega, ha, hk⟩

theorem idxOf_complete :
    ∀ (rows : List Row) (rn : Nat) (idx : List (String × Nat)) (j : Nat) (row : Row)
      (k : String),
      rows.get? j = some row → rowAOf row ≠ "" → rowKeyOf row = k → k ≠ "" →
      ∃ r, lookupRow (idxOf rows rn idx) k = some r := by
  intro rows
  induction rows with
  | nil => intro rn idx j row k hj; simp at hj
  | cons row0 rest ih =>
    intro rn idx j row k hj ha hk hne
    cases j with
    | zero =>
      simp only [List.get?_cons_zero, Option.some.injEq] at hj
      subst hj
      simp only [idxOf]
      by_cases hc : rowAOf row0 ≠ "" ∧ rowKeyOf row0 ≠ ""
          ∧ lookupRow idx (rowKeyOf row0) = none
      · rw [if_pos hc]
        have hsingle : lookupRow (idx ++ [(rowKeyOf row0, rn)]) k = some rn := by
          rw [lookupRow_append_none idx _ k (hk ▸ hc.2.2)]
          simp [lookupRow, hk]
        exact ⟨rn, lookupRow_idxOf_preserve rest (rn + 1) _ k rn hsingle⟩
      · rw [if_neg hc]
        push_neg at hc
        have hsome := hc ha (hk ▸ hne)
        cases hlook : lookupRow idx (rowKeyOf row0) with
        | none => exact absurd hlook hsome
        | some r1 =>
          exact ⟨r1, lookupRow_idxOf_preserve rest (rn + 1) idx k r1 (hk ▸ hlook)⟩
    | succ j2 =>
      simp only [List.get?_cons_succ] at hj
      simp only [idxOf]
      by_cases hc : rowAOf row0 ≠ "" ∧ rowKeyOf row0 ≠ ""
          ∧ lookupRow idx (rowKeyOf row0) = none
      · rw [if_pos hc]
        exact ih (rn + 1) _ j2 row k hj ha hk hne
      · rw [if_neg hc]
        exact ih (rn + 1) idx j2 row k hj ha hk hne

theorem idxOf_min :
    ∀ (rows : List Row) (rn : Nat) (idx : List (String × Nat)),
      (∀ k2 r2, lookupRow idx k2 = some r2 → r2 < rn) →
      ∀ (k : String) (r : Nat), k ≠ "" →
        lookupRow (idxOf rows rn idx) k = some r →
        ∀ (j : Nat) (row : Row), rows.get? j = some row → rn + j < r →
          ¬(rowAOf row ≠ "" ∧ rowKeyOf row = k) := by
  intro rows
  induction rows with
  | nil => intro rn idx hinv k r hne h j row hj; simp at hj
  | cons row0 rest ih =>
    intro rn idx hinv k r hne h j row hj hlt
    simp only [idxOf] at h
    by_cases hc : rowAOf row0 ≠ "" ∧ rowKeyOf row0 ≠ ""
        ∧ lookupRow idx (rowKeyOf row0) = none
    · rw [if_pos hc] at h
      have hinv2 : ∀ k2 r2, lookupRow (idx ++ [(rowKeyOf row0, rn)]) k2 = some r2 →
          r2 < rn + 1 := by
        intro k2 r2 h2
        rcases lookupRow_append_inv idx _ k2 r2 h2 with h3 | h3
        · exact (hinv k2 r2 h3).trans (Nat.lt_succ_self rn)
        · simp only [lookupRow] at h3
          by_cases hk2 : rowKeyOf row0 = k2
          · rw [if_pos hk2] at h3
            have : rn = r2 := Option.some.inj h3.2
            omega
          · rw [if_neg hk2] at h3
            cases h3.2
      cases j with
      | zero =>
        simp only [List.get?_cons_zero, Option.some.injEq] at hj
        subst hj
        intro hhit
        have hk0 : rowKeyOf row0 = k := hhit.2
        have hl2 : lookupRow (idx ++ [(rowKeyOf row0, rn)]) k = some rn := by
          rw [lookupRow_append_none idx _ k (hk0 ▸ hc.2.2)]
          simp [lookupRow, hk0]
        have hpres := lookupRow_idxOf_preserve rest (rn + 1) _ k rn hl2
        rw [hpres] at h
        have : rn = r := Option.some.inj h
        omega
      | succ j2 =>
        simp only [List.get?_cons_succ] at hj
        exact ih (rn + 1) _ hinv2 k r hne h j2 row hj (by omega)
    · rw [if_neg hc] at h
      have hinv2 : ∀ k2 r2, lookupRow idx k2 = some r2 → r2 < rn + 1 :=
        fun k2 r2 h2 => (hinv k2 r2 h2).trans (Nat.lt_succ_self rn)
      cases j with
      | zero =>
        simp only [List.get?_cons_zero, Option.some.injEq] at hj
        subst hj
        intro hhit
        push_neg at hc
        have hlook := hc hhit.1 (hhit.2 ▸ hne)
        cases hl : lookupRow idx (rowKeyOf row0) with
        | none => exact absurd hl hlook
        | some r1 =>
          have hbound := hinv (rowKeyOf row0) r1 hl
          have hpres := lookupRow_idxOf_preserve rest (rn + 1) idx k r1 (hhit.2 ▸ hl)
          rw [hpres] at h
          have : r1 = r := Option.some.inj h
          omega
      | succ j2 =>
        simp only [List.get?_cons_succ] at hj
        exact ih (rn + 1) idx hinv2 k r hne h j2 row hj (by omega)

theorem buildIndex_fst (m : Nat) (S : List Row) :
    (buildIndex m S).1 = idxOf ((S.drop 2).take (m - 2)) 3 [] := by
  unfold buildIndex
  rw [scanGo_eq]

theorem buildIndex_snd (m : Nat) (S : List Row) :
    (buildIndex m S).2 = lastOf ((S.drop 2).take (m - 2)) 3 2 := by
  unfold buildIndex
  rw [scanGo_eq]

theorem rowAOf_nil : rowAOf ([] : Row) = "" := rfl

theorem rowA_nonempty_lt (S : List Row) (q : Nat) (h : rowAOf (readRow S q) ≠ "") :
    q - 1 < S.length := by
  by_contra hc
  have hnone : S.get? (q - 1) = none := List.get?_eq_none.mpr (by omega)
  have : readRow S q = [] := by unfold readRow; rw [hnone]; rfl
  rw [this, rowAOf_nil] at h
  exact h rfl

theorem scanned_get_of (m : Nat) (S : List Row) (j : Nat) (row : Row)
    (h : ((S.drop 2).take (m - 2)).get? j = some row) :
    S.get? (2 + j) = some row ∧ j < m - 2 := by
  rw [List.get?_take_eq_if] at h
  by_cases hj : j < m - 2
  · rw [if_pos hj] at h
    rw [List.get?_drop] at h
    exact ⟨h, hj⟩
  · rw [if_neg hj] at h
    cases h

theorem scanned_get_mk (m : Nat) (S : List Row) (j : Nat) (row : Row)
    (h : S.get? (2 + j) = some row) (hj : j < m - 2) :
    ((S.drop 2).take (m - 2)).get? j = some row := by
  rw [List.get?_take_eq_if, if_pos hj, List.get?_drop]
  exact h

theorem readRow_of_get (S : List Row) (r : Nat) (row : Row)
    (h : S.get? (r - 1) = some row) : readRow S r = row := by
  unfold readRow
  rw [h]
  rfl

theorem buildIndex_lookup_sound (m : Nat) (S : List Row) (k : String) (r : Nat)
    (h : lookupRow (buildIndex m S).1 k = some r) :
    3 ≤ r ∧ r ≤ S.length ∧ r ≤ m
      ∧ rowAOf (readRow S r) ≠ "" ∧ rowKeyOf (readRow S r) = k := by
  rw [buildIndex_fst] at h
  rcases idxOf_sound _ 3 [] k r h with h2 | h2
  · simp [lookupRow] at h2
  · obtain ⟨j, row, hj, hr, ha, hk⟩ := h2
    obtain ⟨hget, hjm⟩ := scanned_get_of m S j row hj
    have hread : readRow S r = row :=
      readRow_of_get S r row (by rw [show r - 1 = 2 + j by omega]; exact hget)
    obtain ⟨hlt, _⟩ := List.get?_eq_some.mp hget
    exact ⟨by omega, by omega, by omega, hread ▸ ha, hread ▸ hk⟩

theorem buildIndex_lookup_complete (m : Nat) (S : List Row) (k : String) (r : Nat)
    (hne : k ≠ "") (h3 : 3 ≤ r) (hS : r ≤ S.length) (hm : r ≤ m)
    (ha : rowAOf (readRow S r) ≠ "") (hk : rowKeyOf (readRow S r) = k) :
    ∃ r2, lookupRow (buildIndex m S).1 k = some r2 := by
  rw [buildIndex_fst]
  obtain ⟨row, hrow⟩ : ∃ row, S.get? (r - 1) = some row := by
    cases hg : S.get? (r - 1) with
    | none =>
      have := List.get?_eq_none.mp hg
      omega
    | some row => exact ⟨row, rfl⟩
  have hread : readRow S r = row := readRow_of_get S r row hrow
  have hsc : ((S.drop 2).take (m - 2)).get? (r - 3) = some row := by
    apply scanned_get_mk m S (r - 3) row
    · rw [show 2 + (r - 3) = r - 1 by omega]
      exact hrow
    · omega
  exact idxOf_complete _ 3 [] (r - 3) row k hsc (hread ▸ ha) (hread ▸ hk) hne

theorem buildIndex_lookup_min (m : Nat) (S : List Row) (k : String) (r : Nat)
    (hne : k ≠ "") (h : lookupRow (buildIndex m S).1 k = some r) :
    ∀ q, 3 ≤ q → q < r →
      ¬(rowAOf (readRow S q) ≠ "" ∧ rowKeyOf (readRow S q) = k) := by
  have hsound := buildIndex_lookup_sound m S k r h
  rw [buildIndex_fst] at h
  intro q hq3 hqr hhit
  have hqlen : q - 1 < S.length := rowA_nonempty_lt S q hhit.1
  obtain ⟨row, hrow⟩ : ∃ row, S.get? (q - 1) = some row := by
    cases hg : S.get? (q - 1) with
    | none =>
      have := List.get?_eq_none.mp hg
      omega
    | some row => exact ⟨row, rfl⟩
  have hread : readRow S q = row := readRow_of_get S q row hrow
  have hsc : ((S.drop 2).take (m - 2)).get? (q - 3) = some row := by
    apply scanned_get_mk m S (q - 3) row
    · rw [show 2 + (q - 3) = q - 1 by omega]
      exact hrow
    · omega
  have hmin := idxOf_min _ 3 []
    (by intro k2 r2 h2; simp [lookupRow] at h2) k r hne h (q - 3) row hsc (by omega)
  exact hmin ⟨hread ▸ hhit.1, hread ▸ hhit.2⟩

theorem buildIndex_last_ge (m : Nat) (S : List Row) (q : Nat)
    (h3 : 3 ≤ q) (hm : q ≤ m)
    (ha : rowAOf (readRow S q) ≠ "") (hd : isDateCell (rowAOf (readRow S q))) :
    q ≤ (buildIndex m S).2 := by
  rw [buildIndex_snd]
  have hqlen : q - 1 < S.length := rowA_nonempty_lt S q ha
  obtain ⟨row, hrow⟩ : ∃ row, S.get? (q - 1) = some row := by
    cases hg : S.get? (q - 1) with
    | none =>
      have := List.get?_eq_none.mp hg
      omega
    | some row => exact ⟨row, rfl⟩
  have hread : readRow S q = row := readRow_of_get S q row hrow
  have hsc : ((S.drop 2).take (m - 2)).get? (q - 3) = some row := by
    apply scanned_get_mk m S (q - 3) row
    · rw [show 2 + (q - 3) = q - 1 by omega]
      exact hrow
    · omega
  have := lastOf_ge_dateHit _ 3 2 (q - 3) row hsc (hread ▸ ha) (hread ▸ hd)
  omega

theorem buildIndex_last_lb (m : Nat) (S : List Row) : 2 ≤ (buildIndex m S).2 := by
  rw [buildIndex_snd]
  exact lastOf_mono _ 3 2 (by omega)

theorem buildIndex_last_ub (m : Nat) (S : List Row) :
    (buildIndex m S).2 = 2
      ∨ (3 ≤ (buildIndex m S).2 ∧ (buildIndex m S).2 ≤ S.length
          ∧ (buildIndex m S).2 ≤ m) := by
  rw [buildIndex_snd]
  rcases lastOf_range ((S.drop 2).take (m - 2)) 3 2 with h | h
  · exact Or.inl h
  · right
    have hlen : ((S.drop 2).take (m - 2)).length ≤ S.length - 2 := by
      rw [List.length_take, List.length_drop]
      omega
    have hlen2 : ((S.drop 2).take (m - 2)).length ≤ m - 2 := by
      rw [List.length_take, List.length_drop]
      omega
    refine ⟨h.1, by omega, by omega⟩

/-! ### C1 stage B : semantics of the sheet writes -/

theorem set_same : ∀ (l : List Row) (i : Nat) (v : Row), l.get? i = some v → l.set i v = l := by
  intro l
  induction l with
  | nil => intro i v h; cases h
  | cons x xs ih =>
    intro i v h
    cases i with
    | zero =>
      simp only [List.get?_cons_zero, Option.some.injEq] at h
      rw [List.set]
      rw [h]
    | succ i2 =>
      simp only [List.get?_cons_succ] at h
      rw [List.set]
      rw [ih i2 v h]

theorem padTo_get (S : List Row) (n i : Nat) :
    ((padTo S n).get? i).getD [] = (S.get? i).getD [] := by
  unfold padTo
  by_cases hi : i < S.length
  · rw [List.get?_append hi]
  · have hS : S.get? i = none := List.get?_eq_none.mpr (by omega)
    rw [List.get?_append_right (by omega), hS]
    cases hrep : (List.replicate (n - S.length) ([] : Row)).get? (i - S.length) with
    | none => rfl
    | some v =>
      have hv : v = [] := List.eq_of_mem_replicate (List.get?_mem hrep)
      subst hv
      rfl

theorem padTo_length (S : List Row) (n : Nat) :
    (padTo S n).length = max S.length n := by
  unfold padTo
  rw [List.length_append, List.length_replicate]
  omega

theorem padTo_eq_self (S : List Row) (n : Nat) (h : n ≤ S.length) : padTo S n = S := by
  unfold padTo
  rw [show n - S.length = 0 by omega]
  simp

theorem writeRow_read_same (S : List Row) (r : Nat) (row : Row) (hr : 1 ≤ r) :
    readRow (writeRow S r row) r = mergeRow (readRow S r) row := by
  unfold writeRow readRow
  rw [List.get?_set_eq_of_lt]
  · rfl
  · rw [padTo_length]
    omega

theorem writeRow_read_other (S : List Row) (r q : Nat) (row : Row)
    (hr : 1 ≤ r) (hq : 1 ≤ q) (hne : q ≠ r) :
    readRow (writeRow S r row) q = readRow S q := by
  unfold writeRow readRow
  rw [List.get?_set_ne _ _ (by omega)]
  exact padTo_get S r (q - 1)

theorem writeRow_length (S : List Row) (r : Nat) (row : Row) :
    (writeRow S r row).length = max S.length r := by
  unfold writeRow
  rw [List.length_set, padTo_length]

theorem writeRow_id (S : List Row) (r : Nat) (row : Row) (hr : 1 ≤ r)
    (hlen : r ≤ S.length) (hfix : mergeRow (readRow S r) row = readRow S r) :
    writeRow S r row = S := by
  unfold writeRow
  rw [padTo_eq_self S r hlen, hfix]
  apply set_same
  unfold readRow
  cases hg : S.get? (r - 1) with
  | none =>
    have := List.get?_eq_none.mp hg
    omega
  | some v => rfl

theorem writeRows_eq_applyEach (rows : List Row) :
    ∀ (S : List Row) (r : Nat), writeRows S r rows = applyEach S (withRows r rows) := by
  induction rows with
  | nil => intro S r; rfl
  | cons row rest ih =>
    intro S r
    show writeRows (writeRow S r row) (r + 1) rest = applyEach S ((r, row) :: withRows (r + 1) rest)
    rw [ih (writeRow S r row) (r + 1)]
    rfl

theorem applyEach_append (S : List Row) (a b : List (Nat × Row)) :
    applyEach S (a ++ b) = applyEach (applyEach S a) b := by
  unfold applyEach
  rw [List.foldl_append]

theorem runs_fold_eq (runs : List (Nat × List Row)) :
    ∀ S : List Row,
      runs.foldl (fun s rn => writeRows s rn.1 rn.2) S = applyEach S (flattenRuns runs) := by
  induction runs with
  | nil => intro S; rfl
  | cons x rest ih =>
    obtain ⟨st, rows⟩ := x
    intro S
    show rest.foldl (fun s rn => writeRows s rn.1 rn.2) (writeRows S st rows)
        = applyEach S (flattenRuns ((st, rows) :: rest))
    rw [ih (writeRows S st rows)]
    have hfr : flattenRuns ((st, rows) :: rest) = withRows st rows ++ flattenRuns rest := by
      simp [flattenRuns]
    rw [hfr, applyEach_append, writeRows_eq_applyEach]

theorem writeRows_append (a : List Row) :
    ∀ (b : List Row) (S : List Row) (st : Nat),
      writeRows S st (a ++ b) = writeRows (writeRows S st a) (st + a.length) b := by
  induction a with
  | nil => intro b S st; simp [writeRows]
  | cons x xs ih =>
    intro b S st
    show writeRows (writeRow S st x) (st + 1) (xs ++ b) = _
    rw [ih b (writeRow S st x) (st + 1)]
    have : st + 1 + xs.length = st + (x :: xs).length := by
      simp only [List.length_cons]; omega
    rw [this]
    rfl

theorem appendLoopGo_sheet :
    ∀ (chunks : List (List Row)) (keys : List String) (sheet : List Row) (st i : Nat),
      (appendLoopGo keys chunks sheet st i).sheet = writeRows sheet st chunks.flatten := by
  intro chunks
  induction chunks with
  | nil => intro keys sheet st i; rfl
  | cons c rest ih =>
    intro keys sheet st i
    simp only [appendLoopGo, List.flatten_cons]
    rw [ih, writeRows_append]

theorem applyEach_untouched :
    ∀ (plan : List (Nat × Row)) (S : List Row) (q : Nat),
      1 ≤ q → (∀ p ∈ plan, 1 ≤ p.1 ∧ p.1 ≠ q) →
      readRow (applyEach S plan) q = readRow S q := by
  intro plan
  induction plan with
  | nil => intro S q _ _; rfl
  | cons p rest ih =>
    obtain ⟨r, b⟩ := p
    intro S q hq hall
    show readRow (applyEach (writeRow S r b) rest) q = readRow S q
    rw [ih (writeRow S r b) q hq (fun x hx => hall x (List.mem_cons_of_mem _ hx))]
    have hp := hall (r, b) (List.mem_cons_self _ _)
    exact writeRow_read_other S r q b hp.1 hq (fun hh => hp.2 hh.symm)

theorem applyEach_read :
    ∀ (plan : List (Nat × Row)) (S : List Row) (r : Nat) (b : Row),
      (plan.map Prod.fst).Nodup → (∀ p ∈ plan, 1 ≤ p.1) → (r, b) ∈ plan →
      readRow (applyEach S plan) r = mergeRow (readRow S r) b := by
  intro plan
  induction plan with
  | nil => intro S r b _ _ hmem; cases hmem
  | cons p rest ih =>
    obtain ⟨r0, b0⟩ := p
    intro S r b hnd hpos hmem
    have hr0 : 1 ≤ r0 := hpos (r0, b0) (List.mem_cons_self _ _)
    have hnd2 : r0 ∉ rest.map Prod.fst ∧ (rest.map Prod.fst).Nodup := by
      rw [List.map_cons] at hnd
      exact List.nodup_cons.mp hnd
    rcases List.mem_cons.mp hmem with heq | hmem2
    · have h1 : r = r0 := congrArg Prod.fst heq
      have h2 : b = b0 := congrArg Prod.snd heq
      rw [h1, h2]
      show readRow (applyEach (writeRow S r0 b0) rest) r0 = mergeRow (readRow S r0) b0
      rw [applyEach_untouched rest (writeRow S r0 b0) r0 hr0 ?hside]
      · exact writeRow_read_same S r0 b0 hr0
      case hside =>
        intro q hq
        refine ⟨hpos q (List.mem_cons_of_mem _ hq), ?_⟩
        intro hcontra
        exact hnd2.1 (hcontra ▸ List.mem_map_of_mem Prod.fst hq)
    · have hrne : r ≠ r0 := by
        intro hcontra
        exact hnd2.1 (hcontra ▸ List.mem_map_of_mem Prod.fst hmem2)
      show readRow (applyEach (writeRow S r0 b0) rest) r = mergeRow (readRow S r) b
      rw [ih (writeRow S r0 b0) r b hnd2.2
        (fun q hq => hpos q (List.mem_cons_of_mem _ hq)) hmem2]
      rw [writeRow_read_other S r0 r b0 hr0 (hpos (r, b) hmem) hrne]

theorem applyEach_length_ge :
    ∀ (plan : List (Nat × Row)) (S : List Row),
      S.length ≤ (applyEach S plan).length
        ∧ ∀ p ∈ plan, p.1 ≤ (applyEach S plan).length := by
  intro plan
  induction plan with
  | nil => intro S; exact ⟨Nat.le_refl _, by simp⟩
  | cons p rest ih =>
    obtain ⟨r, b⟩ := p
    intro S
    have hwl : (writeRow S r b).length = max S.length r := writeRow_length S r b
    have hrec := ih (writeRow S r b)
    constructor
    · show S.length ≤ (applyEach (writeRow S r b) rest).length
      have := hrec.1
      omega
    · intro p hp
      rcases List.mem_cons.mp hp with heq | hmem
      · subst heq
        show r ≤ (applyEach (writeRow S r b) rest).length
        have := hrec.1
        omega
      · exact hrec.2 p hmem

theorem applyEach_id :
    ∀ (plan : List (Nat × Row)) (S : List Row),
      (∀ p ∈ plan, writeRow S p.1 p.2 = S) → applyEach S plan = S := by
  intro plan
  induction plan with
  | nil => intro S _; rfl
  | cons p rest ih =>
    obtain ⟨r, b⟩ := p
    intro S hall
    show applyEach (writeRow S r b) rest = S
    rw [hall (r, b) (List.mem_cons_self _ _)]
    exact ih S (fun x hx => hall x (List.mem_cons_of_mem _ hx))

/-! ### C1 stage C : partition, sort and plan lemmas -/

theorem partition_toUpdate_mem (idx : List (String × Nat)) (B : List Row) (r : Nat) (b : Row)
    (h : (r, b) ∈ (partitionGo idx B).toUpdate) :
    b ∈ B ∧ rowKeyOf b ≠ "" ∧ lookupRow idx (rowKeyOf b) = some r := by
  induction B with
  | nil => cases h
  | cons b0 rest ih =>
    simp only [partitionGo] at h
    by_cases hk : rowKeyOf b0 = ""
    · rw [if_pos hk] at h
      have := ih h
      exact ⟨List.mem_cons_of_mem b0 this.1, this.2⟩
    · rw [if_neg hk] at h
      cases hl : lookupRow idx (rowKeyOf b0) with
      | some r0 =>
        rw [hl] at h
        rcases List.mem_cons.mp h with heq | hmem
        · have h1 : r = r0 := congrArg Prod.fst heq
          have h2 : b = b0 := congrArg Prod.snd heq
          subst h1
          subst h2
          exact ⟨List.mem_cons_self _ _, hk, hl⟩
        · have := ih hmem
          exact ⟨List.mem_cons_of_mem b0 this.1, this.2⟩
      | none =>
        rw [hl] at h
        have := ih h
        exact ⟨List.mem_cons_of_mem b0 this.1, this.2⟩

theorem partition_toUpdate_mem_mk (idx : List (String × Nat)) (B : List Row) (r : Nat) (b : Row)
    (hb : b ∈ B) (hk : rowKeyOf b ≠ "") (hl : lookupRow idx (rowKeyOf b) = some r) :
    (r, b) ∈ (partitionGo idx B).toUpdate := by
  induction B with
  | nil => cases hb
  | cons b0 rest ih =>
    simp only [partitionGo]
    rcases List.mem_cons.mp hb with heq | hmem
    · subst heq
      rw [if_neg hk, hl]
      exact List.mem_cons_self _ _
    · by_cases hk0 : rowKeyOf b0 = ""
      · rw [if_pos hk0]
        exact ih hmem
      · rw [if_neg hk0]
        cases hl0 : lookupRow idx (rowKeyOf b0) with
        | some r0 => exact List.mem_cons_of_mem _ (ih hmem)
        | none => exact ih hmem

theorem partition_toAppend_mem (idx : List (String × Nat)) (B : List Row) (b : Row)
    (h : b ∈ (partitionGo idx B).toAppend) :
    b ∈ B ∧ (rowKeyOf b = "" ∨ lookupRow idx (rowKeyOf b) = none) := by
  induction B with
  | nil => cases h
  | cons b0 rest ih =>
    simp only [partitionGo] at h
    by_cases hk : rowKeyOf b0 = ""
    · rw [if_pos hk] at h
      rcases List.mem_cons.mp h with heq | hmem
      · subst heq
        exact ⟨List.mem_cons_self _ _, Or.inl hk⟩
      · have := ih hmem
        exact ⟨List.mem_cons_of_mem b0 this.1, this.2⟩
    · rw [if_neg hk] at h
      cases hl : lookupRow idx (rowKeyOf b0) with
      | some r0 =>
        rw [hl] at h
        have := ih h
        exact ⟨List.mem_cons_of_mem b0 this.1, this.2⟩
      | none =>
        rw [hl] at h
        rcases List.mem_cons.mp h with heq | hmem
        · subst heq
          exact ⟨List.mem_cons_self _ _, Or.inr hl⟩
        · have := ih hmem
          exact ⟨List.mem_cons_of_mem b0 this.1, this.2⟩

theorem partition_toAppend_mem_mk (idx : List (String × Nat)) (B : List Row) (b : Row)
    (hb : b ∈ B) (hl : lookupRow idx (rowKeyOf b) = none) :
    b ∈ (partitionGo idx B).toAppend := by
  induction B with
  | nil => cases hb
  | cons b0 rest ih =>
    simp only [partitionGo]
    rcases List.mem_cons.mp hb with heq | hmem
    · subst heq
      by_cases hk : rowKeyOf b = ""
      · rw [if_pos hk]
        exact List.mem_cons_self _ _
      · rw [if_neg hk, hl]
        exact List.mem_cons_self _ _
    · by_cases hk0 : rowKeyOf b0 = ""
      · rw [if_pos hk0]
        exact List.mem_cons_of_mem _ (ih hmem)
      · rw [if_neg hk0]
        cases hl0 : lookupRow idx (rowKeyOf b0) with
        | some r0 => exact ih hmem
        | none => exact List.mem_cons_of_mem _ (ih hmem)

theorem partition_toUpdate_snd (idx : List (String × Nat)) (B : List Row)
    (hK : ∀ b ∈ B, rowKeyOf b ≠ "") :
    (partitionGo idx B).toUpdate.map Prod.snd
      = B.filter (fun b => (lookupRow idx (rowKeyOf b)).isSome) := by
  induction B with
  | nil => rfl
  | cons b0 rest ih =>
    have hk0 : rowKeyOf b0 ≠ "" := hK b0 (List.mem_cons_self _ _)
    have ihr := ih (fun b hb => hK b (List.mem_cons_of_mem _ hb))
    simp only [partitionGo, List.filter_cons]
    rw [if_neg hk0]
    cases hl : lookupRow idx (rowKeyOf b0) with
    | some r0 =>
      simp only [hl, Option.isSome_some, if_true]
      show b0 :: (partitionGo idx rest).toUpdate.map Prod.snd = _
      rw [ihr]
    | none =>
      simp only [hl, Option.isSome_none]
      show (partitionGo idx rest).toUpdate.map Prod.snd = _
      rw [ihr]
      rfl

theorem partition_toAppend_eq (idx : List (String × Nat)) (B : List Row)
    (hK : ∀ b ∈ B, rowKeyOf b ≠ "") :
    (partitionGo idx B).toAppend
      = B.filter (fun b => !(lookupRow idx (rowKeyOf b)).isSome) := by
  induction B with
  | nil => rfl
  | cons b0 rest ih =>
    have hk0 : rowKeyOf b0 ≠ "" := hK b0 (List.mem_cons_self _ _)
    have ihr := ih (fun b hb => hK b (List.mem_cons_of_mem _ hb))
    simp only [partitionGo, List.filter_cons]
    rw [if_neg hk0]
    cases hl : lookupRow idx (rowKeyOf b0) with
    | some r0 =>
      simp only [hl, Option.isSome_some, Bool.not_true]
      show (partitionGo idx rest).toAppend = _
      rw [ihr]
      rfl
    | none =>
      simp only [hl, Option.isSome_none, Bool.not_false]
      show b0 :: (partitionGo idx rest).toAppend = _
      rw [ihr]
      simp

theorem insertByRow_perm (x : Nat × Row) :
    ∀ l : List (Nat × Row), (insertByRow x l).Perm (x :: l) := by
  intro l
  induction l with
  | nil => exact List.Perm.refl _
  | cons y ys ih =>
    simp only [insertByRow]
    by_cases hle : x.1 ≤ y.1
    · rw [if_pos hle]
    · rw [if_neg hle]
      exact (List.Perm.cons y ih).trans (List.Perm.swap x y ys)

theorem sortByRow_perm (l : List (Nat × Row)) : (sortByRow l).Perm l := by
  induction l with
  | nil => exact List.Perm.refl _
  | cons x xs ih =>
    show (insertByRow x (sortByRow xs)).Perm (x :: xs)
    exact (insertByRow_perm x (sortByRow xs)).trans (List.Perm.cons x ih)

theorem withRows_mem_of :
    ∀ (l : List Row) (st r : Nat) (b : Row),
      (r, b) ∈ withRows st l → ∃ j, l.get? j = some b ∧ r = st + j := by
  intro l
  induction l with
  | nil => intro st r b h; cases h
  | cons x xs ih =>
    intro st r b h
    rcases List.mem_cons.mp h with heq | hmem
    · have h1 : r = st := congrArg Prod.fst heq
      have h2 : b = x := congrArg Prod.snd heq
      exact ⟨0, by rw [h2]; rfl, by omega⟩
    · obtain ⟨j, hj, hr⟩ := ih (st + 1) r b hmem
      exact ⟨j + 1, by simpa using hj, by omega⟩

theorem withRows_mem_mk :
    ∀ (l : List Row) (st j : Nat) (b : Row),
      l.get? j = some b → (st + j, b) ∈ withRows st l := by
  intro l
  induction l with
  | nil => intro st j b h; cases h
  | cons x xs ih =>
    intro st j b h
    cases j with
    | zero =>
      simp only [List.get?_cons_zero, Option.some.injEq] at h
      subst h
      exact List.mem_cons_self _ _
    | succ j2 =>
      simp only [List.get?_cons_succ] at h
      have := ih (st + 1) j2 b h
      have harith : st + (j2 + 1) = (st + 1) + j2 := by omega
      rw [harith]
      exact List.mem_cons_of_mem _ this

theorem withRows_snd :
    ∀ (l : List Row) (st : Nat), (withRows st l).map Prod.snd = l := by
  intro l
  induction l with
  | nil => intro st; rfl
  | cons x xs ih =>
    intro st
    show x :: (withRows (st + 1) xs).map Prod.snd = x :: xs
    rw [ih (st + 1)]

theorem withRows_fst_bounds :
    ∀ (l : List Row) (st : Nat) (p : Nat × Row),
      p ∈ withRows st l → st ≤ p.1 ∧ p.1 < st + l.length := by
  intro l
  induction l with
  | nil => intro st p h; cases h
  | cons x xs ih =>
    intro st p h
    rcases List.mem_cons.mp h with heq | hmem
    · subst heq
      simp only [List.length_cons]
      omega
    · have := ih (st + 1) p hmem
      simp only [List.length_cons]
      omega

theorem withRows_fst_nodup :
    ∀ (l : List Row) (st : Nat), ((withRows st l).map Prod.fst).Nodup := by
  intro l
  induction l with
  | nil => intro st; exact List.nodup_nil
  | cons x xs ih =>
    intro st
    show (st :: (withRows (st + 1) xs).map Prod.fst).Nodup
    apply List.nodup_cons.mpr
    refine ⟨?_, ih (st + 1)⟩
    intro hmem
    obtain ⟨p, hp, hfst⟩ := List.mem_map.mp hmem
    have := withRows_fst_bounds xs (st + 1) p hp
    omega

theorem mergeRow_cells (old b : Row) (hb : b.length = 15) :
    rowAOf (mergeRow old b) = rowAOf b ∧ rowKeyOf (mergeRow old b) = rowKeyOf b := by
  unfold mergeRow rowAOf rowKeyOf cellOf
  rw [List.get?_append (by omega), List.get?_append (by omega)]
  exact ⟨rfl, rfl⟩

theorem mergeRow_idem (old b : Row) (hb : b.length = 15) :
    mergeRow (mergeRow old b) b = mergeRow old b := by
  unfold mergeRow
  rw [show (15 : Nat) = b.length from hb.symm]
  rw [List.drop_left]

/-- The complete list of single-row writes one reconciliation performs:
the sorted updates followed by the appends at last + 1. -/
def reconcilePlan (M : Nat) (S B : List Row) : List (Nat × Row) :=
  sortByRow (partitionGo (buildIndex M S).1 B).toUpdate
    ++ withRows ((buildIndex M S).2 + 1) (partitionGo (buildIndex M S).1 B).toAppend

theorem reconcile_sheet_eq (M bs : Nat) (S B : List Row) :
    (reconcile M bs S B).sheet = applyEach S (reconcilePlan M S B) := by
  simp only [reconcile]
  rw [appendLoopGo_sheet, chunksOf_flatten, runs_fold_eq, groupRuns_flatten,
    writeRows_eq_applyEach, ← applyEach_append]
  rfl

theorem plan_mem_cases (M : Nat) (S B : List Row) (r : Nat) (b : Row)
    (hmem : (r, b) ∈ reconcilePlan M S B) :
    (b ∈ B ∧ rowKeyOf b ≠ "" ∧ lookupRow (buildIndex M S).1 (rowKeyOf b) = some r)
      ∨ (b ∈ (partitionGo (buildIndex M S).1 B).toAppend
          ∧ ∃ j, (partitionGo (buildIndex M S).1 B).toAppend.get? j = some b
              ∧ r = (buildIndex M S).2 + 1 + j) := by
  rcases List.mem_append.mp hmem with h | h
  · left
    have h2 := (sortByRow_perm _).mem_iff.mp h
    exact partition_toUpdate_mem _ B r b h2
  · right
    obtain ⟨j, hj, hr⟩ := withRows_mem_of _ _ r b h
    exact ⟨List.get?_mem hj, j, hj, by omega⟩

theorem toUpdate_le_last (M : Nat) (S B : List Row)
    (hwf : ∀ q, rowAOf (readRow S q) ≠ "" → isDateCell (rowAOf (readRow S q)))
    (r : Nat) (b : Row)
    (hmem : (r, b) ∈ (partitionGo (buildIndex M S).1 B).toUpdate) :
    3 ≤ r ∧ r ≤ (buildIndex M S).2 ∧ r ≤ S.length ∧ r ≤ M := by
  obtain ⟨hbB, hkne, hlook⟩ := partition_toUpdate_mem _ B r b hmem
  have hsound := buildIndex_lookup_sound M S (rowKeyOf b) r hlook
  have hdate := hwf r hsound.2.2.2.1
  have hlast := buildIndex_last_ge M S r hsound.1 hsound.2.2.1 hsound.2.2.2.1 hdate
  exact ⟨hsound.1, hlast, hsound.2.1, hsound.2.2.1⟩

theorem toAppend_length_le (M : Nat) (S B : List Row)
    (hK : ∀ b ∈ B, rowKeyOf b ≠ "") :
    (partitionGo (buildIndex M S).1 B).toAppend.length ≤ B.length := by
  rw [partition_toAppend_eq _ B hK]
  exact List.length_filter_le _ B

theorem plan_mem_bound (M : Nat) (S B : List Row)
    (hwf : ∀ q, rowAOf (readRow S q) ≠ "" → isDateCell (rowAOf (readRow S q)))
    (hlen : S.length + B.length + 2 ≤ M)
    (hK : ∀ b ∈ B, rowKeyOf b ≠ "")
    (r : Nat) (b : Row) (hmem : (r, b) ∈ reconcilePlan M S B) :
    3 ≤ r ∧ r ≤ M := by
  rcases List.mem_append.mp hmem with h | h
  · have h2 := (sortByRow_perm _).mem_iff.mp h
    have := toUpdate_le_last M S B hwf r b h2
    omega
  · have hb := withRows_fst_bounds _ _ (r, b) h
    simp only at hb
    have hlast := buildIndex_last_ub M S
    have hlb := buildIndex_last_lb M S
    have hta := toAppend_length_le M S B hK
    rcases hlast with h2 | h2
    · omega
    · omega

theorem plan_covers (M : Nat) (S B : List Row)
    (hK : ∀ b ∈ B, rowKeyOf b ≠ "") :
    ∀ b ∈ B, ∃ r, (r, b) ∈ reconcilePlan M S B := by
  intro b hb
  cases hl : lookupRow (buildIndex M S).1 (rowKeyOf b) with
  | some r =>
    refine ⟨r, List.mem_append_left _ ?_⟩
    exact (sortByRow_perm _).mem_iff.mpr (partition_toUpdate_mem_mk _ B r b hb (hK b hb) hl)
  | none =>
    have hta := partition_toAppend_mem_mk _ B b hb hl
    obtain ⟨j, hj⟩ := List.mem_iff_get?.mp hta
    exact ⟨(buildIndex M S).2 + 1 + j, List.mem_append_right _ (withRows_mem_mk _ _ j b hj)⟩

theorem plan_mem_b_in_B (M : Nat) (S B : List Row) (r : Nat) (b : Row)
    (hmem : (r, b) ∈ reconcilePlan M S B) : b ∈ B := by
  rcases plan_mem_cases M S B r b hmem with h | h
  · exact h.1
  · exact (partition_toAppend_mem _ B b h.1).1

theorem toUpdate_nodup (M : Nat) (S B : List Row)
    (hK : ∀ b ∈ B, rowKeyOf b ≠ "") (hN : (B.map rowKeyOf).Nodup) :
    (partitionGo (buildIndex M S).1 B).toUpdate.Nodup := by
  have hsnd := partition_toUpdate_snd (buildIndex M S).1 B hK
  have hBnd : B.Nodup := List.Nodup.of_map rowKeyOf hN
  have : ((partitionGo (buildIndex M S).1 B).toUpdate.map Prod.snd).Nodup := by
    rw [hsnd]
    exact hBnd.filter _
  exact List.Nodup.of_map Prod.snd this

theorem toUpdate_fst_nodup (M : Nat) (S B : List Row)
    (hK : ∀ b ∈ B, rowKeyOf b ≠ "") (hN : (B.map rowKeyOf).Nodup) :
    ((partitionGo (buildIndex M S).1 B).toUpdate.map Prod.fst).Nodup := by
  have hinj : ∀ b1 ∈ B, ∀ b2 ∈ B, rowKeyOf b1 = rowKeyOf b2 → b1 = b2 :=
    List.inj_on_of_nodup_map hN
  apply List.Nodup.map_on ?inj (toUpdate_nodup M S B hK hN)
  case inj =>
    intro p1 hp1 p2 hp2 hfst
    obtain ⟨r1, b1⟩ := p1
    obtain ⟨r2, b2⟩ := p2
    simp only at hfst
    subst hfst
    obtain ⟨hb1, hk1, hl1⟩ := partition_toUpdate_mem _ B r1 b1 hp1
    obtain ⟨hb2, hk2, hl2⟩ := partition_toUpdate_mem _ B r1 b2 hp2
    have hs1 := buildIndex_lookup_sound M S (rowKeyOf b1) r1 hl1
    have hs2 := buildIndex_lookup_sound M S (rowKeyOf b2) r1 hl2
    have hkeq : rowKeyOf b1 = rowKeyOf b2 := by
      rw [← hs1.2.2.2.2, ← hs2.2.2.2.2]
    have := hinj b1 hb1 b2 hb2 hkeq
    rw [this]

theorem plan_fst_nodup (M : Nat) (S B : List Row)
    (hwf : ∀ q, rowAOf (readRow S q) ≠ "" → isDateCell (rowAOf (readRow S q)))
    (hK : ∀ b ∈ B, rowKeyOf b ≠ "") (hN : (B.map rowKeyOf).Nodup) :
    ((reconcilePlan M S B).map Prod.fst).Nodup := by
  unfold reconcilePlan
  rw [List.map_append]
  apply List.Nodup.append
  · have hperm := (sortByRow_perm (partitionGo (buildIndex M S).1 B).toUpdate).map Prod.fst
    exact hperm.nodup_iff.mpr (toUpdate_fst_nodup M S B hK hN)
  · exact withRows_fst_nodup _ _
  · intro x hx1 hx2
    obtain ⟨p1, hp1, hfst1⟩ := List.mem_map.mp hx1
    obtain ⟨p2, hp2, hfst2⟩ := List.mem_map.mp hx2
    obtain ⟨r1, b1⟩ := p1
    have hp1u := (sortByRow_perm _).mem_iff.mp hp1
    have hb1 := toUpdate_le_last M S B hwf r1 b1 hp1u
    have hb2 := withRows_fst_bounds _ _ p2 hp2
    simp only at hfst1
    omega

theorem plan_snd_nodup (M : Nat) (S B : List Row)
    (hK : ∀ b ∈ B, rowKeyOf b ≠ "") (hN : (B.map rowKeyOf).Nodup) :
    ((reconcilePlan M S B).map Prod.snd).Nodup := by
  unfold reconcilePlan
  rw [List.map_append]
  have hBnd : B.Nodup := List.Nodup.of_map rowKeyOf hN
  have hperm := (sortByRow_perm (partitionGo (buildIndex M S).1 B).toUpdate).map Prod.snd
  have htarget : ((partitionGo (buildIndex M S).1 B).toUpdate.map Prod.snd
      ++ (withRows ((buildIndex M S).2 + 1)
          (partitionGo (buildIndex M S).1 B).toAppend).map Prod.snd).Nodup := by
    rw [withRows_snd, partition_toUpdate_snd _ B hK, partition_toAppend_eq _ B hK]
    apply List.Nodup.append (hBnd.filter _) (hBnd.filter _)
    intro x hx1 hx2
    have h1 := (List.mem_filter.mp hx1).2
    have h2 := (List.mem_filter.mp hx2).2
    rw [h1] at h2
    cases h2
  exact ((hperm.append_right _).nodup_iff).mpr htarget

theorem plan_read (M : Nat) (S B : List Row)
    (hwf : ∀ q, rowAOf (readRow S q) ≠ "" → isDateCell (rowAOf (readRow S q)))
    (hlen : S.length + B.length + 2 ≤ M)
    (hK : ∀ b ∈ B, rowKeyOf b ≠ "") (hN : (B.map rowKeyOf).Nodup)
    (r : Nat) (b : Row) (hmem : (r, b) ∈ reconcilePlan M S B) :
    readRow (applyEach S (reconcilePlan M S B)) r = mergeRow (readRow S r) b := by
  apply applyEach_read _ S r b (plan_fst_nodup M S B hwf hK hN)
  · intro p hp
    have := plan_mem_bound M S B hwf hlen hK p.1 p.2 (by simpa using hp)
    omega
  · exact hmem

theorem plan_hit (M : Nat) (S B : List Row)
    (hwf : ∀ q, rowAOf (readRow S q) ≠ "" → isDateCell (rowAOf (readRow S q)))
    (hlen : S.length + B.length + 2 ≤ M)
    (hB15 : ∀ b ∈ B, b.length = 15)
    (hA : ∀ b ∈ B, rowAOf b ≠ "" ∧ isDateCell (rowAOf b))
    (hK : ∀ b ∈ B, rowKeyOf b ≠ "") (hN : (B.map rowKeyOf).Nodup)
    (r : Nat) (b : Row) (hmem : (r, b) ∈ reconcilePlan M S B) :
    rowAOf (readRow (applyEach S (reconcilePlan M S B)) r) ≠ ""
      ∧ rowKeyOf (readRow (applyEach S (reconcilePlan M S B)) r) = rowKeyOf b := by
  have hbB := plan_mem_b_in_B M S B r b hmem
  have hread := plan_read M S B hwf hlen hK hN r b hmem
  have hcells := mergeRow_cells (readRow S r) b (hB15 b hbB)
  rw [hread, hcells.1, hcells.2]
  exact ⟨(hA b hbB).1, rfl⟩

theorem plan_no_hit_before (M : Nat) (S B : List Row)
    (hwf : ∀ q, rowAOf (readRow S q) ≠ "" → isDateCell (rowAOf (readRow S q)))
    (hlen : S.length + B.length + 2 ≤ M)
    (hB15 : ∀ b ∈ B, b.length = 15)
    (_hA : ∀ b ∈ B, rowAOf b ≠ "" ∧ isDateCell (rowAOf b))
    (hK : ∀ b ∈ B, rowKeyOf b ≠ "") (hN : (B.map rowKeyOf).Nodup)
    (r : Nat) (b : Row) (hmem : (r, b) ∈ reconcilePlan M S B)
    (q : Nat) (hq3 : 3 ≤ q) (hqr : q < r) :
    ¬(rowAOf (readRow (applyEach S (reconcilePlan M S B)) q) ≠ ""
      ∧ rowKeyOf (readRow (applyEach S (reconcilePlan M S B)) q) = rowKeyOf b) := by
  have hinj : ∀ b1 ∈ B, ∀ b2 ∈ B, rowKeyOf b1 = rowKeyOf b2 → b1 = b2 :=
    List.inj_on_of_nodup_map hN
  intro hhit
  by_cases hqplan : ∃ p ∈ reconcilePlan M S B, p.1 = q
  · obtain ⟨⟨q2, b2⟩, hp2, hq2⟩ := hqplan
    simp only at hq2
    subst hq2
    have hread := plan_read M S B hwf hlen hK hN q2 b2 hp2
    have hb2B := plan_mem_b_in_B M S B q2 b2 hp2
    have hcells := mergeRow_cells (readRow S q2) b2 (hB15 b2 hb2B)
    have hkeq : rowKeyOf b2 = rowKeyOf b := by
      rw [hread, hcells.2] at hhit
      exact hhit.2
    have hbb : b2 = b := hinj b2 hb2B b (plan_mem_b_in_B M S B r b hmem) hkeq
    subst hbb
    have hsndinj : ∀ p1 ∈ reconcilePlan M S B, ∀ p2 ∈ reconcilePlan M S B,
        Prod.snd p1 = Prod.snd p2 → p1 = p2 :=
      List.inj_on_of_nodup_map (plan_snd_nodup M S B hK hN)
    have heq := hsndinj (q2, b2) hp2 (r, b2) hmem rfl
    have : q2 = r := congrArg Prod.fst heq
    omega
  · push_neg at hqplan
    have hread : readRow (applyEach S (reconcilePlan M S B)) q = readRow S q := by
      apply applyEach_untouched _ S q (by omega)
      intro p hp
      refine ⟨?_, hqplan p hp⟩
      have := plan_mem_bound M S B hwf hlen hK p.1 p.2 (by simpa using hp)
      omega
    rw [hread] at hhit
    rcases plan_mem_cases M S B r b hmem with ⟨hbB, hkne, hlook⟩ | ⟨hbA, j, hj, hrj⟩
    · exact buildIndex_lookup_min M S (rowKeyOf b) r hkne hlook q hq3 hqr hhit
    · have hbB := (partition_toAppend_mem _ B b hbA).1
      have hkne := hK b hbB
      have hlooknone : lookupRow (buildIndex M S).1 (rowKeyOf b) = none := by
        rcases (partition_toAppend_mem _ B b hbA).2 with h | h
        · exact absurd h hkne
        · exact h
      have hqS : q ≤ S.length := by
        have := rowA_nonempty_lt S q hhit.1
        omega
      have hqM : q ≤ M := by omega
      obtain ⟨r2, hr2⟩ := buildIndex_lookup_complete M S (rowKeyOf b) q hkne hq3 hqS hqM
        hhit.1 hhit.2
      rw [hlooknone] at hr2
      cases hr2

theorem plan_lookup_second (M : Nat) (S B : List Row)
    (hwf : ∀ q, rowAOf (readRow S q) ≠ "" → isDateCell (rowAOf (readRow S q)))
    (hlen : S.length + B.length + 2 ≤ M)
    (hB15 : ∀ b ∈ B, b.length = 15)
    (hA : ∀ b ∈ B, rowAOf b ≠ "" ∧ isDateCell (rowAOf b))
    (hK : ∀ b ∈ B, rowKeyOf b ≠ "") (hN : (B.map rowKeyOf).Nodup)
    (r : Nat) (b : Row) (hmem : (r, b) ∈ reconcilePlan M S B) :
    lookupRow (buildIndex M (applyEach S (reconcilePlan M S B))).1 (rowKeyOf b)
      = some r := by
  have hbB := plan_mem_b_in_B M S B r b hmem
  have hkne := hK b hbB
  have hhit := plan_hit M S B hwf hlen hB15 hA hK hN r b hmem
  have hbound := plan_mem_bound M S B hwf hlen hK r b hmem
  have hrS1 : r ≤ (applyEach S (reconcilePlan M S B)).length :=
    (applyEach_length_ge (reconcilePlan M S B) S).2 (r, b) hmem
  obtain ⟨r2, hr2⟩ := buildIndex_lookup_complete M _ (rowKeyOf b) r hkne hbound.1 hrS1
    hbound.2 hhit.1 hhit.2
  have hsound := buildIndex_lookup_sound M _ (rowKeyOf b) r2 hr2
  rcases Nat.lt_trichotomy r2 r with hlt | heq | hgt
  · exact absurd ⟨hsound.2.2.2.1, hsound.2.2.2.2⟩
      (plan_no_hit_before M S B hwf hlen hB15 hA hK hN r b hmem r2 hsound.1 hlt)
  · rw [← heq]
    exact hr2
  · exact absurd hhit (buildIndex_lookup_min M _ (rowKeyOf b) r2 hkne hr2 r hbound.1 hgt)

theorem partition_all_found (idx : List (String × Nat)) (B : List Row)
    (hK : ∀ b ∈ B, rowKeyOf b ≠ "")
    (hfound : ∀ b ∈ B, (lookupRow idx (rowKeyOf b)).isSome) :
    (partitionGo idx B).toAppend = [] ∧ (partitionGo idx B).newKeys = [] := by
  have hta : (partitionGo idx B).toAppend = [] := by
    rw [partition_toAppend_eq idx B hK]
    apply List.filter_eq_nil_iff.mpr
    intro b hb
    simp [hfound b hb]
  refine ⟨hta, ?_⟩
  rw [partition_newKeys_eq idx B hK, hta]
  rfl

theorem reconcile_second_run (M bs : Nat) (T B : List Row)
    (hK : ∀ b ∈ B, rowKeyOf b ≠ "")
    (hfound : ∀ b ∈ B, (lookupRow (buildIndex M T).1 (rowKeyOf b)).isSome) :
    (reconcile M bs T B).appended = 0
      ∧ (reconcile M bs T B).appendWrites = []
      ∧ (reconcile M bs T B).persisted = []
      ∧ (reconcile M bs T B).newKeys = []
      ∧ (reconcile M bs T B).sheet
          = applyEach T (sortByRow (partitionGo (buildIndex M T).1 B).toUpdate) := by
  have hpart := partition_all_found (buildIndex M T).1 B hK hfound
  refine ⟨?_, ?_, ?_, ?_, ?_⟩
  · simp only [reconcile, hpart.1]
    rfl
  · simp only [reconcile, hpart.1]
    rfl
  · simp only [reconcile, hpart.1]
    rfl
  · simp only [reconcile]
    exact hpart.2
  · rw [reconcile_sheet_eq]
    unfold reconcilePlan
    rw [hpart.1]
    show applyEach T (sortByRow _ ++ []) = _
    rw [List.append_nil]

/-- C1 (amended): reconciliation is idempotent on well-formed inputs. For a
sink whose non-empty column-A cells are all date cells (the invariant every
row this system writes maintains), a batch of 15-cell payload rows with
dated column A, non-empty and pairwise-distinct dedup keys, and a scan
window covering the sheet and the batch: running Reconcile twice with the
same batch makes the second run append zero rows, issue no append writes,
record no new dedup keys, and leave the sink content-equal to the state
after the first run (it performs only in-place no-op updates). -/
theorem C1_reconcile_idempotent (M bs : Nat) (S B : List Row)
    (hwf : ∀ q, rowAOf (readRow S q) ≠ "" → isDateCell (rowAOf (readRow S q)))
    (hlen : S.length + B.length + 2 ≤ M)
    (hB15 : ∀ b ∈ B, b.length = 15)
    (hA : ∀ b ∈ B, rowAOf b ≠ "" ∧ isDateCell (rowAOf b))
    (hK : ∀ b ∈ B, rowKeyOf b ≠ "")
    (hN : (B.map rowKeyOf).Nodup) :
    (reconcile M bs (reconcile M bs S B).sheet B).appended = 0
      ∧ (reconcile M bs (reconcile M bs S B).sheet B).appendWrites = []
      ∧ (reconcile M bs (reconcile M bs S B).sheet B).newKeys = []
      ∧ (reconcile M bs (reconcile M bs S B).sheet B).sheet
          = (reconcile M bs S B).sheet := by
  have hfound : ∀ b ∈ B,
      (lookupRow (buildIndex M (reconcile M bs S B).sheet).1 (rowKeyOf b)).isSome := by
    intro b hb
    obtain ⟨r, hr⟩ := plan_covers M S B hK b hb
    have hl := plan_lookup_second M S B hwf hlen hB15 hA hK hN r b hr
    rw [reconcile_sheet_eq M bs S B, hl]
    rfl
  have hsec := reconcile_second_run M bs (reconcile M bs S B).sheet B hK hfound
  refine ⟨hsec.1, hsec.2.1, hsec.2.2.2.1, ?_⟩
  rw [hsec.2.2.2.2]
  apply applyEach_id
  intro p hp
  obtain ⟨r, b⟩ := p
  have hpU := (sortByRow_perm _).mem_iff.mp hp
  obtain ⟨hbB, hkne, hlook2⟩ := partition_toUpdate_mem _ B r b hpU
  obtain ⟨r0, hr0⟩ := plan_covers M S B hK b hbB
  have hl0 := plan_lookup_second M S B hwf hlen hB15 hA hK hN r0 b hr0
  rw [reconcile_sheet_eq M bs S B] at hlook2
  have hrr : r = r0 := Option.some.inj (hlook2.symm.trans hl0)
  subst hrr
  have hbound := plan_mem_bound M S B hwf hlen hK r b hr0
  show writeRow (reconcile M bs S B).sheet r b = (reconcile M bs S B).sheet
  rw [reconcile_sheet_eq M bs S B]
  apply writeRow_id
  · omega
  · exact (applyEach_length_ge (reconcilePlan M S B) S).2 (r, b) hr0
  · rw [plan_read M S B hwf hlen hK hN r b hr0]
    exact mergeRow_idem (readRow S r) b (hB15 b hbB)

/-- A 15-cell payload row with a dated column A, key column "kdup", and a
distinguishing body cell. -/
def c1Row (b : String) : Row :=
  ["2024-01-02", "", b, "", "", "", "", "", "", "", "", "", "", "kdup", ""]

/-- A batch whose two records share one dedup key but differ in content. -/
def c1Batch : List Row := [c1Row "b1", c1Row "b2"]

/-- C1 counterexample: the unqualified claim is false. For the batch of two
records sharing one dedup key (with different bodies) on an empty sink, the
first run appends both at rows 3 and 4; the second run finds the key at row
3 and rewrites row 3 twice, so the sink after the second run differs from
the sink after the first (row 4 keeps the second body while row 3 changes
from the first body to the second). -/
theorem C1_counterexample :
    (reconcile 50000 20 (reconcile 50000 20 [] c1Batch).sheet c1Batch).sheet
      ≠ (reconcile 50000 20 [] c1Batch).sheet := by
  decide

/-- Witness for C1 at a concrete instance: one dated single-key record on an
empty sink; the second run appends nothing and leaves the sink unchanged. -/
theorem C1_reconcile_idempotent_witness :
    (reconcile 50000 20 (reconcile 50000 20 [] [mkPayloadRow "2024-01-02" "kc1"]).sheet
        [mkPayloadRow "2024-01-02" "kc1"]).appended = 0
      ∧ (reconcile 50000 20 (reconcile 50000 20 [] [mkPayloadRow "2024-01-02" "kc1"]).sheet
          [mkPayloadRow "2024-01-02" "kc1"]).sheet
        = (reconcile 50000 20 [] [mkPayloadRow "2024-01-02" "kc1"]).sheet := by
  have h := C1_reconcile_idempotent 50000 20 [] [mkPayloadRow "2024-01-02" "kc1"]
    (fun q hq => absurd rfl hq) (by decide) (by decide) (by decide) (by decide) (by decide)
  exact ⟨h.1, h.2.2.2⟩
